import Mathlib

/-!
Verification of the DS210 graph-analytics project (connected components,
degree / closeness / betweenness centrality, feature normalization, k-means).

Shallow embedding conventions:
- Rust HashMap is embedded as an association list (List (Nat x value)) with
  deterministic iteration order (HashMap iteration order is unspecified in
  Rust; all verified properties are order-independent).
- Rust HashSet of node ids is embedded as a List Nat used as a set.
- f64 is embedded as Lean's exact rationals; all arithmetic the claims are
  about (division by a maximum, sums of nonnegative contributions) is exact.
- Panicking operations (HashMap index on a missing key, Vec index out of
  bounds) are embedded as Option-valued functions returning none, at the
  places a claim can reach; accesses that are guarded by a proved invariant
  are embedded with a default value and commented.
- Unbounded loops (BFS work queues) are embedded with explicit fuel; the
  fuel chosen is proved sufficient for the queue to drain.
-/

namespace DS210

/-- Association list standing for Rust HashMap with key type usize. -/
abbrev AList (α : Type) := List (Nat × α)

/-- HashMap::get. -/
def alGet {α : Type} (k : Nat) : AList α → Option α
  | [] => none
  | (k2, v) :: rest => if k2 = k then some v else alGet k rest

/-- HashMap::insert (replace the value if the key is present, else append). -/
def alInsert {α : Type} (k : Nat) (v : α) : AList α → AList α
  | [] => [(k, v)]
  | (k2, w) :: rest => if k2 = k then (k2, v) :: rest else (k2, w) :: alInsert k v rest

/-- The keys of an association list. -/
def alKeys {α : Type} (m : AList α) : List Nat := m.map Prod.fst

/-- HashSet::insert for node-id sets. -/
def insertS (x : Nat) (s : List Nat) : List Nat := if x ∈ s then s else x :: s

/-! ### Graph building

Every one of find_clusters, compute_closeness and compute_betweenness starts
with the same loop:
  for (u, v) in edges: graph.entry(u).or_default().push(v);
                       graph.entry(v).or_default().push(u)
-/

/-- graph.get(&u).unwrap_or(&vec![]). -/
def neighborsOf (g : AList (List Nat)) (u : Nat) : List Nat := (alGet u g).getD []

/-- graph.entry(u).or_default().push(v): replace u's neighbor list (empty when
absent) by the same list with v appended. -/
def entryPush (g : AList (List Nat)) (u v : Nat) : AList (List Nat) :=
  alInsert u (neighborsOf g u ++ [v]) g

/-- The adjacency map built from the edge list (shared by the three functions). -/
def buildGraph (edges : List (Nat × Nat)) : AList (List Nat) :=
  edges.foldl (fun g e => entryPush (entryPush g e.1 e.2) e.2 e.1) []

/-- Two nodes are adjacent when the edge list joins them in either order
(spec-level relation, independent of the adjacency-map construction). -/
def Adj (edges : List (Nat × Nat)) (a b : Nat) : Prop :=
  (a, b) ∈ edges ∨ (b, a) ∈ edges

/-- Reachability via edges: the reflexive transitive closure of adjacency. -/
def Reach (edges : List (Nat × Nat)) : Nat → Nat → Prop :=
  Relation.ReflTransGen (Adj edges)

/-- A node is touched when it appears as an endpoint of at least one edge. -/
def Touched (edges : List (Nat × Nat)) (x : Nat) : Prop :=
  ∃ e ∈ edges, e.1 = x ∨ e.2 = x

/-! ### find_clusters -/

/-- One neighbor-processing step of the BFS in find_clusters:
if !visited.contains(&nbr) then visited.insert(nbr); queue.push_back(nbr). -/
def stepCollect (qv : List Nat × List Nat) (nbr : Nat) : List Nat × List Nat :=
  if nbr ∈ qv.2 then qv else (qv.1 ++ [nbr], nbr :: qv.2)

/-- The BFS while-loop of find_clusters, with explicit fuel (the loop has no
counter in the source; the fuel used by find_clusters is proved sufficient
for the queue to drain).  State: queue, visited, cluster. -/
def bfsCollect (g : AList (List Nat)) : Nat → List Nat → List Nat → List Nat →
    List Nat × List Nat
  | 0, _, visited, cluster => (visited, cluster)
  | _ + 1, [], visited, cluster => (visited, cluster)
  | fuel + 1, curr :: queue, visited, cluster =>
      let cluster2 := insertS curr cluster
      let qv := (neighborsOf g curr).foldl stepCollect (queue, visited)
      bfsCollect g fuel qv.1 qv.2 cluster2

/-- Fuel bound used for every BFS over g: one more than the number of
distinct keys. -/
def graphFuel (g : AList (List Nat)) : Nat := (alKeys g).dedup.length + 1

/-- cluster.rs find_clusters: iterate the graph keys, BFS from each
unvisited key, collecting one cluster per BFS round. -/
def find_clusters (edges : List (Nat × Nat)) : List (List Nat) :=
  let g := buildGraph edges
  ((alKeys g).foldl
    (fun acc node =>
      if node ∈ acc.1 then acc
      else
        let vc := bfsCollect g (graphFuel g) [node] (insertS node acc.1) []
        (vc.1, acc.2 ++ [vc.2]))
    ([], [])).2

/-- Number of elements of univ not yet visited (the BFS termination measure,
together with the queue length). -/
def countFree (univ visited : List Nat) : Nat :=
  (univ.filter (fun x => decide (x ∉ visited))).length

/-! ### compute_degree -/

/-- One step of the degree loop: *degrees.entry(u).or_insert(0) += 1. -/
def bumpDegree (m : AList Nat) (k : Nat) : AList Nat :=
  alInsert k ((alGet k m).getD 0 + 1) m

/-- graph.rs compute_degree: for (u, v) in edges, bump u and bump v. -/
def compute_degree (edges : List (Nat × Nat)) : AList Nat :=
  edges.foldl (fun m e => bumpDegree (bumpDegree m e.1) e.2) []

/-- Spec-level endpoint count: occurrences of n among all edge endpoints. -/
def endpointCount (n : Nat) (edges : List (Nat × Nat)) : Nat :=
  (edges.map Prod.fst ++ edges.map Prod.snd).count n

/-! ### compute_closeness -/

/-- One neighbor-processing step of the BFS in compute_closeness:
if !visited.contains_key(&nbr) then visited.insert(nbr, dist + 1);
queue.push_back(nbr). -/
def stepDist (d : Nat) (qv : List Nat × AList Nat) (nbr : Nat) : List Nat × AList Nat :=
  if (alGet nbr qv.2).isSome then qv else (qv.1 ++ [nbr], alInsert nbr (d + 1) qv.2)

/-- The BFS while-loop of compute_closeness, with explicit fuel (proved
sufficient).  The popped node's distance is read with default 0: the key is
always present (every queued node was inserted into visited before being
pushed), matching the source's visited[&node] indexing. -/
def bfsDist (g : AList (List Nat)) : Nat → List Nat → AList Nat → AList Nat
  | 0, _, visited => visited
  | _ + 1, [], visited => visited
  | fuel + 1, node :: queue, visited =>
      let d := (alGet node visited).getD 0
      let qv := (neighborsOf g node).foldl (stepDist d) (queue, visited)
      bfsDist g fuel qv.1 qv.2

/-- The per-source score of compute_closeness: run the BFS from s, then
(visited.len() - 1) / total_distance when the distance sum is positive,
else 0.0 (factored out of the source's per-source loop body verbatim). -/
def closenessScore (edges : List (Nat × Nat)) (s : Nat) : ℚ :=
  let g := buildGraph edges
  let visited := bfsDist g (graphFuel g) [s] (alInsert s 0 [])
  let total : Nat := (visited.map Prod.snd).sum
  if 0 < total then ((visited.length - 1 : Nat) : ℚ) / (total : ℚ) else 0

/-- graph.rs compute_closeness: one BFS per requested node, inserting the
score under that node's key. -/
def compute_closeness (edges : List (Nat × Nat)) (nodes : List Nat) : AList ℚ :=
  nodes.foldl (fun closeness s => alInsert s (closenessScore edges s) closeness) []

/-! ### compute_betweenness -/

/-- One neighbor-processing step of the Brandes BFS from popped node v at
distance d.  State: queue, dist, sigma, pred.  The getD defaults stand for
HashMap indexing whose keys are present by construction (sigma and pred are
initialized on every graph key and every neighbor is a graph key; dist
holds w right after the conditional insert). -/
def stepBrandes (v : Nat) (d : Nat)
    (st : List Nat × AList Nat × AList ℚ × AList (List Nat)) (w : Nat) :
    List Nat × AList Nat × AList ℚ × AList (List Nat) :=
  let dist2 := if (alGet w st.2.1).isSome then st.2.1 else alInsert w (d + 1) st.2.1
  let q2 := if (alGet w st.2.1).isSome then st.1 else st.1 ++ [w]
  if (alGet w dist2).getD 0 = d + 1 then
    (q2, dist2,
     alInsert w ((alGet w st.2.2.1).getD 0 + (alGet v st.2.2.1).getD 0) st.2.2.1,
     alInsert w (((alGet w st.2.2.2).getD []) ++ [v]) st.2.2.2)
  else (q2, dist2, st.2.2.1, st.2.2.2)

/-- The BFS while-loop of Brandes (compute_betweenness), with explicit fuel
(the chosen fuel is sufficient; an exhausted-fuel return cannot be reached
from the initial state).  Returns none when the source indexes graph[&v]
for a key the adjacency map does not hold — the source panics there. -/
def brandesBFS (g : AList (List Nat)) :
    Nat → List Nat → List Nat → AList Nat → AList ℚ → AList (List Nat) →
    Option (List Nat × AList Nat × AList ℚ × AList (List Nat))
  | 0, _, stack, dist, sigma, pred => some (stack, dist, sigma, pred)
  | _ + 1, [], stack, dist, sigma, pred => some (stack, dist, sigma, pred)
  | fuel + 1, v :: queue, stack, dist, sigma, pred =>
      match alGet v g with
      | none => none
      | some nbrs =>
          let st := nbrs.foldl (stepBrandes v ((alGet v dist).getD 0))
            (queue, dist, sigma, pred)
          brandesBFS g fuel st.1 (stack ++ [v]) st.2.1 st.2.2.1 st.2.2.2

/-- Brandes dependency accumulation over the reversed traversal stack.
Arguments: source, final sigma, final pred, reversed stack, delta,
centrality accumulator. -/
def brandesAccum (s : Nat) (sigma : AList ℚ) (pred : AList (List Nat)) :
    List Nat → AList ℚ → AList ℚ → AList ℚ
  | [], _, cent => cent
  | v :: rest, delta, cent =>
      let coeff := (1 + (alGet v delta).getD 0) / (alGet v sigma).getD 0
      let delta2 := ((alGet v pred).getD []).foldl
        (fun dl p =>
          alInsert p ((alGet p dl).getD 0 + (alGet p sigma).getD 0 * coeff) dl) delta
      let cent2 := if v ≠ s
        then alInsert v ((alGet v cent).getD 0 + (alGet v delta2).getD 0) cent
        else cent
      brandesAccum s sigma pred rest delta2 cent2

/-- for &v in graph.keys: sigma.insert(v, 0.0). -/
def initSigma (g : AList (List Nat)) : AList ℚ :=
  g.foldl (fun m e => alInsert e.1 0 m) []

/-- for &v in graph.keys: pred.insert(v, Vec::new()). -/
def initPred (g : AList (List Nat)) : AList (List Nat) :=
  g.foldl (fun m e => alInsert e.1 [] m) []

/-- One source's pass of compute_betweenness: the Brandes BFS from s
followed by the dependency accumulation into the running centrality map. -/
def brandesSource (g : AList (List Nat)) (cent : AList ℚ) (s : Nat) :
    Option (AList ℚ) :=
  match brandesBFS g (graphFuel g) [s] [] (alInsert s 0 [])
      (alInsert s 1 (initSigma g)) (initPred g) with
  | none => none
  | some (stack, _, sigma, pred) =>
      some (brandesAccum s sigma pred stack.reverse [] cent)

/-- Accumulating one source into the running result; none once a source
has panicked. -/
def betweennessFoldStep (g : AList (List Nat)) (c? : Option (AList ℚ)) (s : Nat) :
    Option (AList ℚ) :=
  match c? with
  | none => none
  | some cent => brandesSource g cent s

/-- graph.rs compute_betweenness: per-source Brandes passes, then division
of every score by the maximum observed score when that maximum is
positive.  none models the source's panic on an isolated source node. -/
def compute_betweenness (edges : List (Nat × Nat)) (nodes : List Nat) :
    Option (AList ℚ) :=
  let g := buildGraph edges
  match nodes.foldl (betweennessFoldStep g) (some []) with
  | none => none
  | some cent =>
      let max_val := (cent.map Prod.snd).foldl max 0
      if 0 < max_val then some (cent.map (fun e => (e.1, e.2 / max_val)))
      else some cent

/-! ### normalize_features -/

/-- Feature triple (degree, closeness, betweenness); f64 embedded as Rat. -/
abbrev Feat := ℚ × ℚ × ℚ

/-- The fold computing max_d / max_c / max_b, each seeded at 0.0 and bumped
on strict increase. -/
def maxTriple (fs : AList Feat) : Feat :=
  fs.foldl
    (fun acc e =>
      (if e.2.1 > acc.1 then e.2.1 else acc.1,
       if e.2.2.1 > acc.2.1 then e.2.2.1 else acc.2.1,
       if e.2.2.2 > acc.2.2 then e.2.2.2 else acc.2.2))
    (0, 0, 0)

/-- cluster.rs normalize_features: scale each dimension by its maximum when
that maximum is strictly positive, else leave the dimension untouched. -/
def normalize_features (fs : AList Feat) : AList Feat :=
  let m := maxTriple fs
  fs.map fun e =>
    (e.1,
     (if m.1 > 0 then e.2.1 / m.1 else e.2.1,
      if m.2.1 > 0 then e.2.2.1 / m.2.1 else e.2.2.1,
      if m.2.2 > 0 then e.2.2.2 / m.2.2 else e.2.2.2))

/-- The scalar fold underlying each component of maxTriple. -/
def listMax0Aux (a : ℚ) (l : List ℚ) : ℚ :=
  l.foldl (fun a v => if v > a then v else a) a

/-- Maximum of a list of rationals, seeded at 0 (the source seeds each
max_* accumulator at 0.0). -/
def listMax0 (l : List ℚ) : ℚ := listMax0Aux 0 l

/-! ### kmeans -/

/-- Squared Euclidean distance.  The source returns the square root of this
sum; the square root is strictly increasing on nonnegative reals, so every
dist < best_dist comparison in kmeans coincides with the comparison of the
squared distances embedded here, and the assignment argmin is unchanged. -/
def euclidean_distance_sq (a b : Feat) : ℚ :=
  (a.1 - b.1) * (a.1 - b.1) + (a.2.1 - b.2.1) * (a.2.1 - b.2.1) +
    (a.2.2 - b.2.2) * (a.2.2 - b.2.2)

/-- The nearest-centroid linear scan of kmeans: best = 0 with
best_dist = distance to centroids[0], then for i in 1.. update on strict
decrease.  none when centroids is empty — the source panics at
centroids[0] there.  Accumulator: (best, best_dist, next index). -/
def assignBest (feat : Feat) (centroids : List Feat) : Option Nat :=
  match centroids with
  | [] => none
  | c0 :: rest =>
      some (rest.foldl
        (fun acc c =>
          if euclidean_distance_sq feat c < acc.2.1 then
            (acc.2.2, euclidean_distance_sq feat c, acc.2.2 + 1)
          else (acc.1, acc.2.1, acc.2.2 + 1))
        (0, euclidean_distance_sq feat c0, 1)).1

/-- The assignment step of one kmeans iteration: for (node, feat) in
features, assignments.insert(node, nearest centroid index). -/
def assignStep (centroids : List Feat) :
    AList Feat → AList Nat → Option (AList Nat)
  | [], assignments => some assignments
  | (node, feat) :: rest, assignments =>
      match assignBest feat centroids with
      | none => none
      | some b => assignStep centroids rest (alInsert node b assignments)

/-- The counts/sums accumulation of the update step: for (node, cluster) in
assignments, sums[cluster] += features[&node] componentwise and
counts[cluster] += 1.  An out-of-bounds cluster index would panic in the
source (sums and counts are Vecs of length k): none.  features[&node] is
read with a default that is never used: assignment keys always come from
features. -/
def accumCS (features : AList Feat) :
    AList Nat → List Nat → List Feat → Option (List Nat × List Feat)
  | [], counts, sums => some (counts, sums)
  | (node, cluster) :: rest, counts, sums =>
      if cluster < counts.length ∧ cluster < sums.length then
        accumCS features rest (counts.set cluster (counts.getD cluster 0 + 1))
          (sums.set cluster
            ((sums.getD cluster (0, 0, 0)).1 + ((alGet node features).getD (0, 0, 0)).1,
             (sums.getD cluster (0, 0, 0)).2.1 + ((alGet node features).getD (0, 0, 0)).2.1,
             (sums.getD cluster (0, 0, 0)).2.2 + ((alGet node features).getD (0, 0, 0)).2.2))
      else none

/-- The centroid rewrite of the update step over the index list 0..k:
centroids[i] becomes the per-dimension mean when counts[i] > 0 and is left
unchanged otherwise.  Writing centroids[i] past the end of the (possibly
truncated) centroid vector would panic: none. -/
def updateCentroidsAux (counts : List Nat) (sums : List Feat) :
    List Nat → List Feat → Option (List Feat)
  | [], centroids => some centroids
  | i :: rest, centroids =>
      if 0 < counts.getD i 0 then
        if i < centroids.length then
          updateCentroidsAux counts sums rest
            (centroids.set i
              ((sums.getD i (0, 0, 0)).1 / (counts.getD i 0 : ℚ),
               (sums.getD i (0, 0, 0)).2.1 / (counts.getD i 0 : ℚ),
               (sums.getD i (0, 0, 0)).2.2 / (counts.getD i 0 : ℚ)))
        else none
      else updateCentroidsAux counts sums rest centroids

/-- for i in 0..k { if counts[i] > 0 { centroids[i] = mean } }. -/
def updateCentroids (k : Nat) (counts : List Nat) (sums : List Feat)
    (centroids : List Feat) : Option (List Feat) :=
  updateCentroidsAux counts sums (List.range k) centroids

/-- The for _ in 0..max_iters loop of kmeans: assignment step, counts/sums
accumulation (counts = vec![0; k], sums = vec![(0.0,0.0,0.0); k]), centroid
update, then the next iteration — no convergence early exit. -/
def kmeansLoop (features : AList Feat) (k : Nat) :
    Nat → List Feat → AList Nat → Option (AList Nat)
  | 0, _, assignments => some assignments
  | iters + 1, centroids, assignments =>
      match assignStep centroids features assignments with
      | none => none
      | some asg2 =>
          match accumCS features asg2 (List.replicate k 0)
              (List.replicate k (0, 0, 0)) with
          | none => none
          | some cs =>
              match updateCentroids k cs.1 cs.2 centroids with
              | none => none
              | some centroids2 => kmeansLoop features k iters centroids2 asg2

/-- cluster.rs kmeans.  The rand::choose_multiple selection of initial
centroids is passed in as init: a list of distinct keys of features whose
length is the minimum of k and the number of distinct nodes (that is what
choose_multiple returns — for k greater than the population it silently
yields the whole population).  features[id] is total on selected keys. -/
def kmeans (features : AList Feat) (k max_iters : Nat) (init : List Nat) :
    Option (AList Nat) :=
  kmeansLoop features k max_iters
    (init.map (fun id => (alGet id features).getD (0, 0, 0))) []

/-- Componentwise sum of feature vectors, seeded at an accumulator. -/
def featSumFrom (a : Feat) (l : List Feat) : Feat :=
  l.foldl (fun a b => (a.1 + b.1, a.2.1 + b.2.1, a.2.2 + b.2.2)) a

/-! ### Theorems -/

theorem alInsert_cons {α : Type} (k k2 : Nat) (v w : α) (rest : AList α) :
    alInsert k v ((k2, w) :: rest) =
      if k2 = k then (k2, v) :: rest else (k2, w) :: alInsert k v rest := rfl

@[simp] theorem alGet_nil {α : Type} (k : Nat) : alGet (α := α) k [] = none := rfl

@[simp] theorem alGet_cons {α : Type} (k k2 : Nat) (v : α) (m : AList α) :
    alGet k ((k2, v) :: m) = if k2 = k then some v else alGet k m := rfl

@[simp] theorem alGet_alInsert_self {α : Type} (k : Nat) (v : α) (m : AList α) :
    alGet k (alInsert k v m) = some v := by
  induction m with
  | nil => simp [alInsert]
  | cons e rest ih =>
      obtain ⟨k2, w⟩ := e
      by_cases h : k2 = k
      · simp [alInsert, h]
      · simp [alInsert, h, ih]

theorem alGet_alInsert_ne {α : Type} {k k2 : Nat} (hne : k ≠ k2) (v : α) (m : AList α) :
    alGet k2 (alInsert k v m) = alGet k2 m := by
  induction m with
  | nil => simp [alInsert, hne]
  | cons e rest ih =>
      obtain ⟨k3, w⟩ := e
      by_cases h : k3 = k
      · subst h
        simp [alInsert, hne]
      · simp [alInsert, h, ih]

theorem mem_alKeys_iff_isSome {α : Type} (k : Nat) (m : AList α) :
    k ∈ alKeys m ↔ (alGet k m).isSome := by
  induction m with
  | nil => simp [alKeys]
  | cons e rest ih =>
      obtain ⟨k2, v⟩ := e
      by_cases h : k2 = k
      · simp [alKeys, h]
      · simpa [alKeys, h, Ne.symm h] using ih

theorem mem_alKeys_alInsert {α : Type} (x k : Nat) (v : α) (m : AList α) :
    x ∈ alKeys (alInsert k v m) ↔ x = k ∨ x ∈ alKeys m := by
  induction m with
  | nil => simp [alInsert, alKeys, eq_comm]
  | cons e rest ih =>
      obtain ⟨k2, w⟩ := e
      by_cases h : k2 = k
      · rw [alInsert_cons, if_pos h]
        subst h
        simp only [alKeys, List.map_cons, List.mem_cons]
        tauto
      · rw [alInsert_cons, if_neg h]
        simp only [alKeys, List.map_cons, List.mem_cons]
        rw [alKeys] at ih
        rw [ih]
        tauto

theorem alKeys_nodup_alInsert {α : Type} (k : Nat) (v : α) (m : AList α)
    (h : (alKeys m).Nodup) : (alKeys (alInsert k v m)).Nodup := by
  induction m with
  | nil => simp [alInsert, alKeys]
  | cons e rest ih =>
      obtain ⟨k2, w⟩ := e
      simp only [alKeys, List.map_cons, List.nodup_cons] at h
      by_cases hk : k2 = k
      · rw [alInsert_cons, if_pos hk]
        simp only [alKeys, List.map_cons, List.nodup_cons]
        exact h
      · rw [alInsert_cons, if_neg hk]
        simp only [alKeys, List.map_cons, List.nodup_cons]
        refine ⟨fun hmem => ?_, ih h.2⟩
        rcases (mem_alKeys_alInsert k2 k v rest).mp hmem with h1 | h1
        · exact hk h1
        · exact h.1 h1

theorem length_alInsert_mem {α : Type} (k : Nat) (v : α) (m : AList α)
    (h : k ∈ alKeys m) : (alInsert k v m).length = m.length := by
  induction m with
  | nil => simp [alKeys] at h
  | cons e rest ih =>
      obtain ⟨k2, w⟩ := e
      by_cases hk : k2 = k
      · rw [alInsert_cons, if_pos hk]
        simp
      · rw [alInsert_cons, if_neg hk]
        simp only [alKeys, List.map_cons, List.mem_cons] at h
        rcases h with h | h
        · exact absurd h.symm hk
        · simp [ih h]

theorem length_alInsert_not_mem {α : Type} (k : Nat) (v : α) (m : AList α)
    (h : k ∉ alKeys m) : (alInsert k v m).length = m.length + 1 := by
  induction m with
  | nil => simp [alInsert]
  | cons e rest ih =>
      obtain ⟨k2, w⟩ := e
      simp only [alKeys, List.map_cons, List.mem_cons] at h
      push_neg at h
      rw [alInsert_cons, if_neg (Ne.symm h.1)]
      simp [ih h.2]

@[simp] theorem mem_insertS (y x : Nat) (s : List Nat) :
    y ∈ insertS x s ↔ y = x ∨ y ∈ s := by
  by_cases h : x ∈ s
  · simp only [insertS, if_pos h]
    constructor
    · tauto
    · rintro (rfl | hy)
      · exact h
      · exact hy
  · simp [insertS, if_neg h]

theorem adj_symm {edges : List (Nat × Nat)} {a b : Nat} (h : Adj edges a b) :
    Adj edges b a := h.symm

theorem reach_symm {edges : List (Nat × Nat)} {a b : Nat} (h : Reach edges a b) :
    Reach edges b a :=
  Relation.ReflTransGen.symmetric (fun _ _ hxy => adj_symm hxy) h

theorem neighborsOf_entryPush (g : AList (List Nat)) (u v x : Nat) :
    neighborsOf (entryPush g u v) x =
      if x = u then neighborsOf g u ++ [v] else neighborsOf g x := by
  by_cases h : x = u
  · subst h
    simp [entryPush, neighborsOf]
  · rw [if_neg h]
    unfold entryPush neighborsOf
    rw [alGet_alInsert_ne (fun h2 => h h2.symm)]

theorem mem_neighborsOf_edgeStep (g : AList (List Nat)) (a b x y : Nat) :
    y ∈ neighborsOf (entryPush (entryPush g a b) b a) x ↔
      y ∈ neighborsOf g x ∨ (x = a ∧ y = b) ∨ (x = b ∧ y = a) := by
  rw [neighborsOf_entryPush]
  by_cases hxb : x = b
  · rw [if_pos hxb, neighborsOf_entryPush]
    by_cases hba : b = a
    · rw [if_pos hba]
      subst hxb
      subst hba
      simp only [List.append_assoc, List.mem_append, List.mem_singleton]
      tauto
    · rw [if_neg hba]
      subst hxb
      simp only [List.mem_append, List.mem_singleton]
      tauto
  · rw [if_neg hxb, neighborsOf_entryPush]
    by_cases hxa : x = a
    · rw [if_pos hxa]
      subst hxa
      simp only [List.mem_append, List.mem_singleton]
      tauto
    · rw [if_neg hxa]
      tauto

theorem neighborsOf_buildGraph_aux (edges : List (Nat × Nat)) (g : AList (List Nat))
    (x y : Nat) :
    y ∈ neighborsOf (edges.foldl (fun g e => entryPush (entryPush g e.1 e.2) e.2 e.1) g) x ↔
      y ∈ neighborsOf g x ∨ (x, y) ∈ edges ∨ (y, x) ∈ edges := by
  induction edges generalizing g with
  | nil => simp
  | cons e rest ih =>
      obtain ⟨a, b⟩ := e
      simp only [List.foldl_cons]
      rw [ih, mem_neighborsOf_edgeStep]
      simp only [List.mem_cons, Prod.mk.injEq]
      tauto

/-- Characterization of the built adjacency lists: membership is exactly edge
adjacency (in either order, with multiplicity collapsed by membership). -/
theorem mem_neighborsOf_buildGraph (edges : List (Nat × Nat)) (x y : Nat) :
    y ∈ neighborsOf (buildGraph edges) x ↔ Adj edges x y := by
  have h := neighborsOf_buildGraph_aux edges [] x y
  simpa [buildGraph, neighborsOf, alGet, Adj] using h

theorem alKeys_entryPush (g : AList (List Nat)) (u v x : Nat) :
    x ∈ alKeys (entryPush g u v) ↔ x = u ∨ x ∈ alKeys g :=
  mem_alKeys_alInsert x u (neighborsOf g u ++ [v]) g

theorem mem_alKeys_buildGraph_aux (edges : List (Nat × Nat)) (g : AList (List Nat)) (x : Nat) :
    x ∈ alKeys (edges.foldl (fun g e => entryPush (entryPush g e.1 e.2) e.2 e.1) g) ↔
      x ∈ alKeys g ∨ Touched edges x := by
  induction edges generalizing g with
  | nil => simp [Touched]
  | cons e rest ih =>
      obtain ⟨a, b⟩ := e
      simp only [List.foldl_cons, ih, alKeys_entryPush]
      simp only [Touched, List.mem_cons]
      constructor
      · rintro (h | h)
        · rcases h with rfl | (rfl | h)
          · exact Or.inr ⟨(a, x), Or.inl rfl, Or.inr rfl⟩
          · exact Or.inr ⟨(x, b), Or.inl rfl, Or.inl rfl⟩
          · exact Or.inl h
        · obtain ⟨e2, he2, hx⟩ := h
          exact Or.inr ⟨e2, Or.inr he2, hx⟩
      · rintro (h | ⟨e2, (rfl | he2), hx⟩)
        · exact Or.inl (Or.inr (Or.inr h))
        · rcases hx with hx | hx
          · exact Or.inl (Or.inr (Or.inl hx.symm))
          · exact Or.inl (Or.inl hx.symm)
        · exact Or.inr ⟨e2, he2, hx⟩

/-- A node is a key of the built graph exactly when it appears in some edge. -/
theorem mem_alKeys_buildGraph (edges : List (Nat × Nat)) (x : Nat) :
    x ∈ alKeys (buildGraph edges) ↔ Touched edges x := by
  simpa [buildGraph, alKeys] using mem_alKeys_buildGraph_aux edges [] x

/-- Closure: every neighbor in the built graph is itself a key. -/
theorem neighborsOf_buildGraph_closed (edges : List (Nat × Nat)) {x y : Nat}
    (h : y ∈ neighborsOf (buildGraph edges) x) : y ∈ alKeys (buildGraph edges) := by
  rw [mem_neighborsOf_buildGraph] at h
  rw [mem_alKeys_buildGraph]
  rcases h with h | h
  · exact ⟨(x, y), h, Or.inr rfl⟩
  · exact ⟨(y, x), h, Or.inl rfl⟩

theorem isSome_alGet_buildGraph_of_mem {edges : List (Nat × Nat)} {x : Nat}
    (h : x ∈ alKeys (buildGraph edges)) : (alGet x (buildGraph edges)).isSome :=
  (mem_alKeys_iff_isSome x (buildGraph edges)).mp h

theorem countFree_le_length (univ visited : List Nat) :
    countFree univ visited ≤ univ.length :=
  List.length_filter_le _ _

theorem countFree_congr (univ vs vs2 : List Nat)
    (h : ∀ b ∈ univ, b ∈ vs ↔ b ∈ vs2) : countFree univ vs = countFree univ vs2 := by
  unfold countFree
  rw [List.filter_congr]
  intro b hb
  simp [h b hb]

theorem countFree_insert (univ vs : List Nat) (x : Nat) (hU : univ.Nodup)
    (hx : x ∈ univ) (hvs : x ∉ vs) :
    countFree univ (x :: vs) + 1 = countFree univ vs := by
  induction univ with
  | nil => cases hx
  | cons a rest ih =>
      rw [List.nodup_cons] at hU
      rcases List.mem_cons.mp hx with rfl | hx2
      · have h1 : countFree rest (x :: vs) = countFree rest vs := by
          apply countFree_congr
          intro b hb
          have hbx : b ≠ x := fun h => hU.1 (h ▸ hb)
          simp [hbx]
        unfold countFree at h1 ⊢
        simp only [List.filter_cons]
        have e1 : (decide (x ∉ x :: vs)) = false := by simp
        have e2 : (decide (x ∉ vs)) = true := by simpa using hvs
        simp only [e1, e2, if_false, if_true]
        simpa using h1
      · unfold countFree at ih ⊢
        simp only [List.filter_cons]
        by_cases hav : a ∈ vs
        · have e1 : (decide (a ∉ x :: vs)) = false := by simp [hav]
          have e2 : (decide (a ∉ vs)) = false := by simp [hav]
          simp only [e1, e2, if_false]
          exact ih hU.2 hx2
        · by_cases hax : a = x
          · subst hax
            exact absurd hx2 hU.1
          · have e1 : (decide (a ∉ x :: vs)) = true := by simp [hav, hax]
            have e2 : (decide (a ∉ vs)) = true := by simpa using hav
            simp only [e1, e2, if_true, List.length_cons]
            have := ih hU.2 hx2
            omega

theorem foldCollect_spec (univ : List Nat) (hU : univ.Nodup) :
    ∀ (nbrs : List Nat), (∀ x ∈ nbrs, x ∈ univ) →
    ∀ (q v : List Nat),
      (nbrs.foldl stepCollect (q, v)).1.length +
          countFree univ (nbrs.foldl stepCollect (q, v)).2 =
        q.length + countFree univ v ∧
      (∀ x ∈ v, x ∈ (nbrs.foldl stepCollect (q, v)).2) ∧
      (∀ x ∈ q, x ∈ (nbrs.foldl stepCollect (q, v)).1) ∧
      (∀ x, x ∈ (nbrs.foldl stepCollect (q, v)).1 ↔
        x ∈ q ∨ (x ∈ (nbrs.foldl stepCollect (q, v)).2 ∧ x ∉ v)) ∧
      (∀ x ∈ (nbrs.foldl stepCollect (q, v)).2, x ∈ v ∨ x ∈ nbrs) ∧
      (∀ x ∈ nbrs, x ∈ (nbrs.foldl stepCollect (q, v)).2) := by
  intro nbrs
  induction nbrs with
  | nil =>
      intro _ q v
      refine ⟨rfl, fun x hx => hx, fun x hx => hx, fun x => ?_, fun x hx => Or.inl hx,
        fun x hx => absurd hx (List.not_mem_nil x)⟩
      simp only [List.foldl_nil]
      tauto
  | cons nbr rest ih =>
      intro hsub q v
      have hnbr : nbr ∈ univ := hsub nbr (List.mem_cons_self _ _)
      have hrest : ∀ x ∈ rest, x ∈ univ := fun x hx => hsub x (List.mem_cons_of_mem _ hx)
      simp only [List.foldl_cons]
      by_cases hmem : nbr ∈ v
      · have e1 : stepCollect (q, v) nbr = (q, v) := by
          simp only [stepCollect]
          rw [if_pos hmem]
        rw [e1]
        obtain ⟨m1, m2, m3, m4, m5, m6⟩ := ih hrest q v
        refine ⟨m1, m2, m3, m4, fun x hx => ?_, fun x hx => ?_⟩
        · rcases m5 x hx with h | h
          · exact Or.inl h
          · exact Or.inr (List.mem_cons_of_mem _ h)
        · rcases List.mem_cons.mp hx with rfl | h
          · exact m2 x hmem
          · exact m6 x h
      · have e1 : stepCollect (q, v) nbr = (q ++ [nbr], nbr :: v) := by
          simp only [stepCollect]
          rw [if_neg hmem]
        rw [e1]
        obtain ⟨m1, m2, m3, m4, m5, m6⟩ := ih hrest (q ++ [nbr]) (nbr :: v)
        have hcnt := countFree_insert univ v nbr hU hnbr hmem
        refine ⟨?_, ?_, ?_, ?_, ?_, ?_⟩
        · rw [m1]
          simp only [List.length_append, List.length_singleton]
          omega
        · intro x hx
          exact m2 x (List.mem_cons_of_mem _ hx)
        · intro x hx
          exact m3 x (List.mem_append_left _ hx)
        · intro x
          rw [m4 x]
          constructor
          · rintro (hx | ⟨hx2, hx3⟩)
            · rcases List.mem_append.mp hx with hx | hx
              · exact Or.inl hx
              · rcases List.mem_singleton.mp hx with rfl
                exact Or.inr ⟨m2 x (List.mem_cons_self _ _), hmem⟩
            · refine Or.inr ⟨hx2, fun hxv => hx3 (List.mem_cons_of_mem _ hxv)⟩
          · rintro (hx | ⟨hx2, hx3⟩)
            · exact Or.inl (List.mem_append_left _ hx)
            · by_cases hxn : x = nbr
              · subst hxn
                exact Or.inl (List.mem_append_right _ (List.mem_singleton.mpr rfl))
              · refine Or.inr ⟨hx2, fun hxv => ?_⟩
                rcases List.mem_cons.mp hxv with h | h
                · exact hxn h
                · exact hx3 h
        · intro x hx
          rcases m5 x hx with h | h
          · rcases List.mem_cons.mp h with rfl | h2
            · exact Or.inr (List.mem_cons_self _ _)
            · exact Or.inl h2
          · exact Or.inr (List.mem_cons_of_mem _ h)
        · intro x hx
          rcases List.mem_cons.mp hx with rfl | h
          · exact m2 x (List.mem_cons_self _ _)
          · exact m6 x h

theorem bfsCollect_cons (g : AList (List Nat)) (fuel curr : Nat)
    (queue visited cluster : List Nat) :
    bfsCollect g (fuel + 1) (curr :: queue) visited cluster =
      bfsCollect g fuel ((neighborsOf g curr).foldl stepCollect (queue, visited)).1
        ((neighborsOf g curr).foldl stepCollect (queue, visited)).2
        (insertS curr cluster) := rfl

/-- Master invariant lemma for the BFS round of find_clusters.  A is the
spec-level adjacency relation (instantiated with Adj edges); n is the BFS
root; avoid is the visited set of the previous rounds. -/
theorem bfsCollect_spec (g : AList (List Nat)) (A : Nat → Nat → Prop)
    (hA : ∀ u y, y ∈ neighborsOf g u → A u y)
    (hclosed : ∀ u y, y ∈ neighborsOf g u → y ∈ alKeys g)
    (n : Nat) (avoid : List Nat) :
    ∀ (fuel : Nat) (queue visited cluster : List Nat),
      (∀ x ∈ queue, x ∈ visited) →
      (∀ x ∈ cluster, x ∈ visited) →
      (∀ x ∈ cluster, ∀ y ∈ neighborsOf g x, y ∈ visited) →
      (∀ x ∈ queue, Relation.ReflTransGen A n x) →
      (∀ x ∈ cluster, Relation.ReflTransGen A n x) →
      (∀ x ∈ avoid, x ∈ visited) →
      (∀ x ∈ queue, x ∉ avoid) →
      (∀ x ∈ cluster, x ∉ avoid) →
      (∀ x ∈ cluster, x ∈ alKeys g) →
      (∀ x ∈ queue, x ∈ alKeys g) →
      queue.length + countFree (alKeys g).dedup visited ≤ fuel →
      (∀ x, x ∈ (bfsCollect g fuel queue visited cluster).1 ↔
         x ∈ visited ∨ x ∈ (bfsCollect g fuel queue visited cluster).2) ∧
      (∀ x ∈ (bfsCollect g fuel queue visited cluster).2,
         ∀ y ∈ neighborsOf g x, y ∈ (bfsCollect g fuel queue visited cluster).1) ∧
      (∀ x ∈ (bfsCollect g fuel queue visited cluster).2,
         Relation.ReflTransGen A n x) ∧
      (∀ x ∈ (bfsCollect g fuel queue visited cluster).2, x ∉ avoid) ∧
      (∀ x ∈ (bfsCollect g fuel queue visited cluster).2, x ∈ alKeys g) ∧
      (∀ x ∈ visited, x ∈ (bfsCollect g fuel queue visited cluster).1) ∧
      (∀ x ∈ cluster, x ∈ (bfsCollect g fuel queue visited cluster).2) ∧
      (∀ x ∈ queue, x ∈ (bfsCollect g fuel queue visited cluster).2) := by
  intro fuel
  induction fuel with
  | zero =>
      intro queue visited cluster h1 h2 h3 h4 h5 h6 h7 h8 h9 hq hfuel
      have hq0 : queue = [] := by
        have : queue.length = 0 := by omega
        exact List.eq_nil_of_length_eq_zero this
      subst hq0
      simp only [bfsCollect]
      exact ⟨fun x => ⟨Or.inl, fun hx => hx.elim id (h2 x)⟩, h3, h5, h8, h9,
        fun x hx => hx, fun x hx => hx, fun x hx => absurd hx (List.not_mem_nil x)⟩
  | succ fuel ih =>
      intro queue visited cluster h1 h2 h3 h4 h5 h6 h7 h8 h9 hq hfuel
      cases queue with
      | nil =>
          simp only [bfsCollect]
          exact ⟨fun x => ⟨Or.inl, fun hx => hx.elim id (h2 x)⟩, h3, h5, h8, h9,
            fun x hx => hx, fun x hx => hx, fun x hx => absurd hx (List.not_mem_nil x)⟩
      | cons curr rest =>
          rw [bfsCollect_cons]
          obtain ⟨m1, m2, m3, m4, m5, m6⟩ :=
            foldCollect_spec (alKeys g).dedup (List.nodup_dedup _) (neighborsOf g curr)
              (fun y hy => List.mem_dedup.mpr (hclosed curr y hy)) rest visited
          have hcurrv : curr ∈ visited := h1 curr (List.mem_cons_self _ _)
          have hcurrR : Relation.ReflTransGen A n curr := h4 curr (List.mem_cons_self _ _)
          have hrest_sub : ∀ x ∈ rest, x ∈ visited :=
            fun x hx => h1 x (List.mem_cons_of_mem _ hx)
          -- membership in the new queue forces: old rest, or a neighbor of curr
          have hq1_cases : ∀ x ∈ ((neighborsOf g curr).foldl stepCollect (rest, visited)).1,
              x ∈ rest ∨ (x ∈ neighborsOf g curr ∧ x ∉ visited) := by
            intro x hx
            rcases (m4 x).mp hx with h | ⟨hv1, hnv⟩
            · exact Or.inl h
            · rcases m5 x hv1 with h | h
              · exact absurd h hnv
              · exact Or.inr ⟨h, hnv⟩
          obtain ⟨c1, c2, c3, c4, c5, c6, c7, c8⟩ :=
            ih ((neighborsOf g curr).foldl stepCollect (rest, visited)).1
              ((neighborsOf g curr).foldl stepCollect (rest, visited)).2
              (insertS curr cluster)
              (by
                intro x hx
                rcases (m4 x).mp hx with h | ⟨hv1, _⟩
                · exact m2 x (hrest_sub x h)
                · exact hv1)
              (by
                intro x hx
                rcases (mem_insertS x curr cluster).mp hx with rfl | h
                · exact m2 x hcurrv
                · exact m2 x (h2 x h))
              (by
                intro x hx y hy
                rcases (mem_insertS x curr cluster).mp hx with rfl | h
                · exact m6 y hy
                · exact m2 y (h3 x h y hy))
              (by
                intro x hx
                rcases hq1_cases x hx with h | ⟨hnb, _⟩
                · exact h4 x (List.mem_cons_of_mem _ h)
                · exact Relation.ReflTransGen.tail hcurrR (hA curr x hnb))
              (by
                intro x hx
                rcases (mem_insertS x curr cluster).mp hx with rfl | h
                · exact hcurrR
                · exact h5 x h)
              (fun x hx => m2 x (h6 x hx))
              (by
                intro x hx
                rcases hq1_cases x hx with h | ⟨_, hnv⟩
                · exact h7 x (List.mem_cons_of_mem _ h)
                · exact fun hav => hnv (h6 x hav))
              (by
                intro x hx
                rcases (mem_insertS x curr cluster).mp hx with rfl | h
                · exact h7 x (List.mem_cons_self _ _)
                · exact h8 x h)
              (by
                intro x hx
                rcases (mem_insertS x curr cluster).mp hx with rfl | h
                · exact hq x (List.mem_cons_self _ _)
                · exact h9 x h)
              (by
                intro x hx
                rcases hq1_cases x hx with h | ⟨hnb, _⟩
                · exact hq x (List.mem_cons_of_mem _ h)
                · exact hclosed curr x hnb)
              (by
                simp only [List.length_cons] at hfuel
                omega)
          refine ⟨?_, c2, c3, c4, c5, ?_, ?_, ?_⟩
          · intro x
            rw [c1 x]
            constructor
            · rintro (hx | hx)
              · by_cases hxv : x ∈ visited
                · exact Or.inl hxv
                · refine Or.inr (c8 x ?_)
                  exact (m4 x).mpr (Or.inr ⟨hx, hxv⟩)
              · exact Or.inr hx
            · rintro (hx | hx)
              · exact Or.inl (m2 x hx)
              · exact Or.inr hx
          · intro x hx
            exact c6 x (m2 x hx)
          · intro x hx
            exact c7 x ((mem_insertS x curr cluster).mpr (Or.inr hx))
          · intro x hx
            rcases List.mem_cons.mp hx with h | h
            · exact c7 x ((mem_insertS x curr cluster).mpr (Or.inl h))
            · exact c8 x (m3 x h)

/-- One full BFS round of find_clusters, started at an unvisited key n:
the new visited set is the old one united with the cluster, and the cluster
is exactly the reachability class of n. -/
theorem bfsRound_spec (edges : List (Nat × Nat)) (n : Nat) (visited : List Nat)
    (hn_key : n ∈ alKeys (buildGraph edges)) (hnv : n ∉ visited)
    (hclosed_v : ∀ x ∈ visited, ∀ y ∈ neighborsOf (buildGraph edges) x, y ∈ visited) :
    (∀ x, x ∈ (bfsCollect (buildGraph edges) (graphFuel (buildGraph edges)) [n]
        (insertS n visited) []).1 ↔
      x ∈ visited ∨ x ∈ (bfsCollect (buildGraph edges) (graphFuel (buildGraph edges)) [n]
        (insertS n visited) []).2) ∧
    (∀ x, x ∈ (bfsCollect (buildGraph edges) (graphFuel (buildGraph edges)) [n]
        (insertS n visited) []).2 ↔ Reach edges n x) ∧
    (∀ x ∈ (bfsCollect (buildGraph edges) (graphFuel (buildGraph edges)) [n]
        (insertS n visited) []).2, x ∉ visited) ∧
    (∀ x ∈ (bfsCollect (buildGraph edges) (graphFuel (buildGraph edges)) [n]
        (insertS n visited) []).2, x ∈ alKeys (buildGraph edges)) ∧
    (∀ x ∈ (bfsCollect (buildGraph edges) (graphFuel (buildGraph edges)) [n]
        (insertS n visited) []).2,
      ∀ y ∈ neighborsOf (buildGraph edges) x,
        y ∈ (bfsCollect (buildGraph edges) (graphFuel (buildGraph edges)) [n]
          (insertS n visited) []).1) := by
  obtain ⟨c1, c2, c3, c4, c5, c6, c7, c8⟩ :=
    bfsCollect_spec (buildGraph edges) (Adj edges)
      (fun u y hy => (mem_neighborsOf_buildGraph edges u y).mp hy)
      (fun u y hy => neighborsOf_buildGraph_closed edges hy)
      n visited (graphFuel (buildGraph edges)) [n] (insertS n visited) []
      (by
        intro x hx
        rcases List.mem_singleton.mp hx with rfl
        exact (mem_insertS x x visited).mpr (Or.inl rfl))
      (fun x hx => absurd hx (List.not_mem_nil x))
      (fun x hx => absurd hx (List.not_mem_nil x))
      (by
        intro x hx
        rcases List.mem_singleton.mp hx with rfl
        exact Relation.ReflTransGen.refl)
      (fun x hx => absurd hx (List.not_mem_nil x))
      (fun x hx => (mem_insertS x n visited).mpr (Or.inr hx))
      (by
        intro x hx
        rcases List.mem_singleton.mp hx with rfl
        exact hnv)
      (fun x hx => absurd hx (List.not_mem_nil x))
      (fun x hx => absurd hx (List.not_mem_nil x))
      (by
        intro x hx
        rcases List.mem_singleton.mp hx with rfl
        exact hn_key)
      (by
        have := countFree_le_length (alKeys (buildGraph edges)).dedup (insertS n visited)
        simp only [List.length_singleton, graphFuel]
        omega)
  have hnC : n ∈ (bfsCollect (buildGraph edges) (graphFuel (buildGraph edges)) [n]
      (insertS n visited) []).2 := c8 n (List.mem_singleton.mpr rfl)
  have hV : ∀ x, x ∈ (bfsCollect (buildGraph edges) (graphFuel (buildGraph edges)) [n]
      (insertS n visited) []).1 ↔
      x ∈ visited ∨ x ∈ (bfsCollect (buildGraph edges) (graphFuel (buildGraph edges)) [n]
        (insertS n visited) []).2 := by
    intro x
    rw [c1 x]
    constructor
    · rintro (hx | hx)
      · rcases (mem_insertS x n visited).mp hx with rfl | h
        · exact Or.inr hnC
        · exact Or.inl h
      · exact Or.inr hx
    · rintro (hx | hx)
      · exact Or.inl ((mem_insertS x n visited).mpr (Or.inr hx))
      · exact Or.inr hx
  refine ⟨hV, fun x => ⟨c3 x, ?_⟩, c4, c5, c2⟩
  intro hreach
  induction hreach with
  | refl => exact hnC
  | tail hab hbc ih =>
      rename_i b c
      have hcV : c ∈ (bfsCollect (buildGraph edges) (graphFuel (buildGraph edges)) [n]
          (insertS n visited) []).1 :=
        c2 b ih c ((mem_neighborsOf_buildGraph edges b c).mpr hbc)
      rcases (hV c).mp hcV with hcv | hcC
      · exfalso
        have hbv : b ∈ visited :=
          hclosed_v c hcv b ((mem_neighborsOf_buildGraph edges c b).mpr (adj_symm hbc))
        exact c4 b ih hbv
      · exact hcC

/-- Invariant-preservation of the outer loop of find_clusters over a list of
candidate start keys. -/
theorem findClustersLoop_spec (edges : List (Nat × Nat)) :
    ∀ (ks : List Nat), (∀ k ∈ ks, k ∈ alKeys (buildGraph edges)) →
    ∀ (visited : List Nat) (clusters : List (List Nat)),
      (∀ x ∈ visited, ∀ y ∈ neighborsOf (buildGraph edges) x, y ∈ visited) →
      (∀ c ∈ clusters, ∃ r, ∀ x, x ∈ c ↔ Reach edges r x) →
      (∀ x, x ∈ visited ↔ ∃ c ∈ clusters, x ∈ c) →
      List.Pairwise (fun c d => ∀ x, x ∈ c → x ∉ d) clusters →
      (∀ c ∈ clusters, ∀ x ∈ c, x ∈ alKeys (buildGraph edges)) →
      (∀ x ∈ (ks.foldl (fun acc node => if node ∈ acc.1 then acc else
          ((bfsCollect (buildGraph edges) (graphFuel (buildGraph edges)) [node]
              (insertS node acc.1) []).1,
           acc.2 ++ [(bfsCollect (buildGraph edges) (graphFuel (buildGraph edges)) [node]
              (insertS node acc.1) []).2])) (visited, clusters)).1,
        ∀ y ∈ neighborsOf (buildGraph edges) x,
          y ∈ (ks.foldl (fun acc node => if node ∈ acc.1 then acc else
            ((bfsCollect (buildGraph edges) (graphFuel (buildGraph edges)) [node]
                (insertS node acc.1) []).1,
             acc.2 ++ [(bfsCollect (buildGraph edges) (graphFuel (buildGraph edges)) [node]
                (insertS node acc.1) []).2])) (visited, clusters)).1) ∧
      (∀ c ∈ (ks.foldl (fun acc node => if node ∈ acc.1 then acc else
          ((bfsCollect (buildGraph edges) (graphFuel (buildGraph edges)) [node]
              (insertS node acc.1) []).1,
           acc.2 ++ [(bfsCollect (buildGraph edges) (graphFuel (buildGraph edges)) [node]
              (insertS node acc.1) []).2])) (visited, clusters)).2,
        ∃ r, ∀ x, x ∈ c ↔ Reach edges r x) ∧
      (∀ x, x ∈ (ks.foldl (fun acc node => if node ∈ acc.1 then acc else
          ((bfsCollect (buildGraph edges) (graphFuel (buildGraph edges)) [node]
              (insertS node acc.1) []).1,
           acc.2 ++ [(bfsCollect (buildGraph edges) (graphFuel (buildGraph edges)) [node]
              (insertS node acc.1) []).2])) (visited, clusters)).1 ↔
        ∃ c ∈ (ks.foldl (fun acc node => if node ∈ acc.1 then acc else
          ((bfsCollect (buildGraph edges) (graphFuel (buildGraph edges)) [node]
              (insertS node acc.1) []).1,
           acc.2 ++ [(bfsCollect (buildGraph edges) (graphFuel (buildGraph edges)) [node]
              (insertS node acc.1) []).2])) (visited, clusters)).2, x ∈ c) ∧
      List.Pairwise (fun c d => ∀ x, x ∈ c → x ∉ d)
        ((ks.foldl (fun acc node => if node ∈ acc.1 then acc else
          ((bfsCollect (buildGraph edges) (graphFuel (buildGraph edges)) [node]
              (insertS node acc.1) []).1,
           acc.2 ++ [(bfsCollect (buildGraph edges) (graphFuel (buildGraph edges)) [node]
              (insertS node acc.1) []).2])) (visited, clusters)).2) ∧
      (∀ c ∈ (ks.foldl (fun acc node => if node ∈ acc.1 then acc else
          ((bfsCollect (buildGraph edges) (graphFuel (buildGraph edges)) [node]
              (insertS node acc.1) []).1,
           acc.2 ++ [(bfsCollect (buildGraph edges) (graphFuel (buildGraph edges)) [node]
              (insertS node acc.1) []).2])) (visited, clusters)).2,
        ∀ x ∈ c, x ∈ alKeys (buildGraph edges)) ∧
      (∀ k ∈ ks, k ∈ (ks.foldl (fun acc node => if node ∈ acc.1 then acc else
          ((bfsCollect (buildGraph edges) (graphFuel (buildGraph edges)) [node]
              (insertS node acc.1) []).1,
           acc.2 ++ [(bfsCollect (buildGraph edges) (graphFuel (buildGraph edges)) [node]
              (insertS node acc.1) []).2])) (visited, clusters)).1) ∧
      (∀ x ∈ visited, x ∈ (ks.foldl (fun acc node => if node ∈ acc.1 then acc else
          ((bfsCollect (buildGraph edges) (graphFuel (buildGraph edges)) [node]
              (insertS node acc.1) []).1,
           acc.2 ++ [(bfsCollect (buildGraph edges) (graphFuel (buildGraph edges)) [node]
              (insertS node acc.1) []).2])) (visited, clusters)).1) := by
  intro ks
  induction ks with
  | nil =>
      intro _ visited clusters i1 i2 i3 i4 i5
      simp only [List.foldl_nil]
      exact ⟨i1, i2, i3, i4, i5, fun k hk => absurd hk (List.not_mem_nil k),
        fun x hx => hx⟩
  | cons node rest ih =>
      intro hks visited clusters i1 i2 i3 i4 i5
      have hnode_key : node ∈ alKeys (buildGraph edges) := hks node (List.mem_cons_self _ _)
      have hrest_keys : ∀ k ∈ rest, k ∈ alKeys (buildGraph edges) :=
        fun k hk => hks k (List.mem_cons_of_mem _ hk)
      simp only [List.foldl_cons]
      by_cases hmem : node ∈ visited
      · rw [if_pos hmem]
        obtain ⟨r1, r2, r3, r4, r5, r6, r7⟩ := ih hrest_keys visited clusters i1 i2 i3 i4 i5
        refine ⟨r1, r2, r3, r4, r5, ?_, r7⟩
        intro k hk
        rcases List.mem_cons.mp hk with h | h
        · exact r7 k (h ▸ hmem)
        · exact r6 k h
      · rw [if_neg hmem]
        obtain ⟨b1, b2, b3, b4, b5⟩ := bfsRound_spec edges node visited hnode_key hmem i1
        have hnodeC : node ∈ (bfsCollect (buildGraph edges) (graphFuel (buildGraph edges))
            [node] (insertS node visited) []).2 :=
          (b2 node).mpr Relation.ReflTransGen.refl
        obtain ⟨r1, r2, r3, r4, r5, r6, r7⟩ := ih hrest_keys
          (bfsCollect (buildGraph edges) (graphFuel (buildGraph edges)) [node]
            (insertS node visited) []).1
          (clusters ++ [(bfsCollect (buildGraph edges) (graphFuel (buildGraph edges)) [node]
            (insertS node visited) []).2])
          (by
            intro x hx y hy
            rcases (b1 x).mp hx with h | h
            · exact (b1 y).mpr (Or.inl (i1 x h y hy))
            · exact b5 x h y hy)
          (by
            intro c hc
            rcases List.mem_append.mp hc with h | h
            · exact i2 c h
            · rcases List.mem_singleton.mp h with rfl
              exact ⟨node, b2⟩)
          (by
            intro x
            rw [b1 x, i3 x]
            constructor
            · rintro (⟨c, hc, hxc⟩ | hx)
              · exact ⟨c, List.mem_append_left _ hc, hxc⟩
              · exact ⟨_, List.mem_append_right _ (List.mem_singleton.mpr rfl), hx⟩
            · rintro ⟨c, hc, hxc⟩
              rcases List.mem_append.mp hc with h | h
              · exact Or.inl ⟨c, h, hxc⟩
              · rcases List.mem_singleton.mp h with rfl
                exact Or.inr hxc)
          (by
            rw [List.pairwise_append]
            refine ⟨i4, List.pairwise_singleton _ _, ?_⟩
            intro c hc d hd x hxc
            rcases List.mem_singleton.mp hd with rfl
            intro hxd
            exact b3 x hxd ((i3 x).mpr ⟨c, hc, hxc⟩))
          (by
            intro c hc
            rcases List.mem_append.mp hc with h | h
            · exact i5 c h
            · rcases List.mem_singleton.mp h with rfl
              exact b4)
        refine ⟨r1, r2, r3, r4, r5, ?_, ?_⟩
        · intro k hk
          rcases List.mem_cons.mp hk with h | h
          · exact r7 k (h ▸ (b1 node).mpr (Or.inr hnodeC))
          · exact r6 k h
        · intro x hx
          exact r7 x ((b1 x).mpr (Or.inl hx))

theorem find_clusters_eq (edges : List (Nat × Nat)) :
    find_clusters edges =
      ((alKeys (buildGraph edges)).foldl (fun acc node => if node ∈ acc.1 then acc else
          ((bfsCollect (buildGraph edges) (graphFuel (buildGraph edges)) [node]
              (insertS node acc.1) []).1,
           acc.2 ++ [(bfsCollect (buildGraph edges) (graphFuel (buildGraph edges)) [node]
              (insertS node acc.1) []).2])) ([], [])).2 := rfl

theorem pairwise_disj_eq {cs : List (List Nat)}
    (hp : List.Pairwise (fun c d => ∀ x, x ∈ c → x ∉ d) cs) :
    ∀ c ∈ cs, ∀ d ∈ cs, ∀ x, x ∈ c → x ∈ d → c = d := by
  induction cs with
  | nil =>
      intro c hc
      exact absurd hc (List.not_mem_nil c)
  | cons a rest ih =>
      rw [List.pairwise_cons] at hp
      intro c hc d hd x hxc hxd
      rcases List.mem_cons.mp hc with hca | hcr
      · rcases List.mem_cons.mp hd with hda | hdr
        · exact hca.trans hda.symm
        · exact absurd hxd (hp.1 d hdr x (hca ▸ hxc))
      · rcases List.mem_cons.mp hd with hda | hdr
        · exact absurd hxc (hp.1 c hcr x (hda ▸ hxd))
        · exact ih hp.2 c hcr d hdr x hxc hxd

/-- C3: for every edge list, the components returned by find_clusters
partition exactly the nodes appearing in at least one edge: every touched
node lies in some returned component, a node in two returned components
forces them equal (so membership is unique), any two nodes of one component
are mutually reachable via edges, and no edge joins two distinct
components. -/
theorem find_clusters_partition (edges : List (Nat × Nat)) :
    (∀ x, Touched edges x ↔ ∃ c ∈ find_clusters edges, x ∈ c) ∧
    (∀ c ∈ find_clusters edges, ∀ d ∈ find_clusters edges,
      ∀ x, x ∈ c → x ∈ d → c = d) ∧
    (∀ c ∈ find_clusters edges, ∀ x ∈ c, ∀ y ∈ c, Reach edges x y) ∧
    (∀ e ∈ edges, ∀ c ∈ find_clusters edges, ∀ d ∈ find_clusters edges,
      e.1 ∈ c → e.2 ∈ d → c = d) := by
  obtain ⟨r1, r2, r3, r4, r5, r6, r7⟩ :=
    findClustersLoop_spec edges (alKeys (buildGraph edges)) (fun k hk => hk) [] []
      (fun x hx => absurd hx (List.not_mem_nil x))
      (fun c hc => absurd hc (List.not_mem_nil c))
      (by
        intro x
        constructor
        · intro hx
          exact absurd hx (List.not_mem_nil x)
        · rintro ⟨c, hc, _⟩
          exact absurd hc (List.not_mem_nil c))
      List.Pairwise.nil
      (fun c hc => absurd hc (List.not_mem_nil c))
  rw [← find_clusters_eq] at r2 r3 r4 r5
  constructor
  · intro x
    constructor
    · intro hx
      exact (r3 x).mp (r6 x ((mem_alKeys_buildGraph edges x).mpr hx))
    · rintro ⟨c, hc, hxc⟩
      exact (mem_alKeys_buildGraph edges x).mp (r5 c hc x hxc)
  refine ⟨pairwise_disj_eq r4, ?_, ?_⟩
  · intro c hc x hx y hy
    obtain ⟨r, hr⟩ := r2 c hc
    exact Relation.ReflTransGen.trans (reach_symm ((hr x).mp hx)) ((hr y).mp hy)
  · intro e he c hc d hd h1 h2
    obtain ⟨r, hr⟩ := r2 c hc
    have hv : e.2 ∈ c := by
      refine (hr e.2).mpr (Relation.ReflTransGen.tail ((hr e.1).mp h1) ?_)
      left
      simpa using he
    exact pairwise_disj_eq r4 c hc d hd e.2 hv h2

theorem alGet_bumpDegree (m : AList Nat) (k n : Nat) :
    alGet n (bumpDegree m k) =
      if k = n then some ((alGet n m).getD 0 + 1) else alGet n m := by
  by_cases h : k = n
  · subst h
    simp [bumpDegree]
  · simp [bumpDegree, h, alGet_alInsert_ne h]

theorem endpointCount_cons (n : Nat) (e : Nat × Nat) (edges : List (Nat × Nat)) :
    endpointCount n (e :: edges) =
      endpointCount n edges + (if e.1 = n then 1 else 0) + (if e.2 = n then 1 else 0) := by
  simp only [endpointCount, List.map_cons]
  rw [List.count_append, List.count_append, List.count_cons, List.count_cons]
  by_cases h1 : e.1 = n <;> by_cases h2 : e.2 = n <;>
    simp [h1, h2, List.count_append] <;> omega

theorem compute_degree_loop (edges : List (Nat × Nat)) (m : AList Nat) (n : Nat) :
    alGet n (edges.foldl (fun m e => bumpDegree (bumpDegree m e.1) e.2) m) =
      if alGet n m = none ∧ endpointCount n edges = 0 then none
      else some ((alGet n m).getD 0 + endpointCount n edges) := by
  induction edges generalizing m with
  | nil =>
      simp only [List.foldl_nil, endpointCount, List.map_nil, List.count_nil, List.append_nil]
      cases h : alGet n m <;> simp [h]
  | cons e rest ih =>
      simp only [List.foldl_cons]
      rw [ih, endpointCount_cons]
      rw [alGet_bumpDegree, alGet_bumpDegree]
      by_cases h1 : e.1 = n <;> by_cases h2 : e.2 = n
      · simp only [if_pos h1, if_pos h2]
        cases h : alGet n m <;> simp [h] <;> omega
      · simp only [if_pos h1, if_neg h2]
        cases h : alGet n m <;> simp [h] <;> omega
      · simp only [if_neg h1, if_pos h2]
        cases h : alGet n m <;> simp [h] <;> omega
      · simp only [if_neg h1, if_neg h2]
        cases h : alGet n m <;> simp [h]

/-- C9: compute_degree maps every node to the number of edge endpoints equal
to it (parallel edges and self-loop endpoints each count), a node appearing
in no edge has no entry, and the chain example [(1,2),(2,3),(3,4)] yields
degrees 1, 2, 2, 1. -/
theorem compute_degree_correct :
    (∀ (edges : List (Nat × Nat)) (n : Nat),
      alGet n (compute_degree edges) =
        if endpointCount n edges = 0 then none else some (endpointCount n edges)) ∧
    compute_degree [(1, 2), (2, 3), (3, 4)] = [(1, 1), (2, 2), (3, 2), (4, 1)] := by
  constructor
  · intro edges n
    have h := compute_degree_loop edges [] n
    simpa [compute_degree] using h
  · rfl

theorem bfsDist_cons (g : AList (List Nat)) (fuel node : Nat) (queue : List Nat)
    (visited : AList Nat) :
    bfsDist g (fuel + 1) (node :: queue) visited =
      bfsDist g fuel
        ((neighborsOf g node).foldl (stepDist ((alGet node visited).getD 0))
          (queue, visited)).1
        ((neighborsOf g node).foldl (stepDist ((alGet node visited).getD 0))
          (queue, visited)).2 := rfl

theorem foldDist_spec (univ : List Nat) (hU : univ.Nodup) (d : Nat) :
    ∀ (nbrs : List Nat), (∀ x ∈ nbrs, x ∈ univ) →
    ∀ (q : List Nat) (v : AList Nat),
      (nbrs.foldl (stepDist d) (q, v)).1.length +
          countFree univ (alKeys (nbrs.foldl (stepDist d) (q, v)).2) =
        q.length + countFree univ (alKeys v) ∧
      (∀ x, (alGet x v).isSome → (alGet x (nbrs.foldl (stepDist d) (q, v)).2).isSome) ∧
      (∀ x ∈ q, x ∈ (nbrs.foldl (stepDist d) (q, v)).1) ∧
      (∀ x, x ∈ (nbrs.foldl (stepDist d) (q, v)).1 ↔
        x ∈ q ∨ ((alGet x (nbrs.foldl (stepDist d) (q, v)).2).isSome ∧
          ¬(alGet x v).isSome)) ∧
      (∀ x, (alGet x (nbrs.foldl (stepDist d) (q, v)).2).isSome →
        (alGet x v).isSome ∨ x ∈ nbrs) ∧
      (∀ y ∈ nbrs, (alGet y (nbrs.foldl (stepDist d) (q, v)).2).isSome) ∧
      ((alKeys v).Nodup → (alKeys (nbrs.foldl (stepDist d) (q, v)).2).Nodup) := by
  intro nbrs
  induction nbrs with
  | nil =>
      intro _ q v
      refine ⟨rfl, fun x hx => hx, fun x hx => hx, fun x => ?_,
        fun x hx => Or.inl hx, fun y hy => absurd hy (List.not_mem_nil y), fun h => h⟩
      simp only [List.foldl_nil]
      tauto
  | cons nbr rest ih =>
      intro hsub q v
      have hnbr : nbr ∈ univ := hsub nbr (List.mem_cons_self _ _)
      have hrest : ∀ x ∈ rest, x ∈ univ := fun x hx => hsub x (List.mem_cons_of_mem _ hx)
      simp only [List.foldl_cons]
      by_cases hmem : (alGet nbr v).isSome
      · have e1 : stepDist d (q, v) nbr = (q, v) := by
          simp only [stepDist]
          rw [if_pos hmem]
        rw [e1]
        obtain ⟨m1, m2, m3, m4, m5, m6, m7⟩ := ih hrest q v
        refine ⟨m1, m2, m3, m4, fun x hx => ?_, fun y hy => ?_, m7⟩
        · rcases m5 x hx with h | h
          · exact Or.inl h
          · exact Or.inr (List.mem_cons_of_mem _ h)
        · rcases List.mem_cons.mp hy with h | h
          · exact m2 y (h ▸ hmem)
          · exact m6 y h
      · have e1 : stepDist d (q, v) nbr = (q ++ [nbr], alInsert nbr (d + 1) v) := by
          simp only [stepDist]
          rw [if_neg hmem]
        rw [e1]
        obtain ⟨m1, m2, m3, m4, m5, m6, m7⟩ := ih hrest (q ++ [nbr]) (alInsert nbr (d + 1) v)
        have hkeys : ∀ x, x ∈ alKeys (alInsert nbr (d + 1) v) ↔ x ∈ nbr :: alKeys v := by
          intro x
          rw [mem_alKeys_alInsert, List.mem_cons]
        have hnbr_notkey : nbr ∉ alKeys v := by
          rw [mem_alKeys_iff_isSome]
          exact hmem
        have hcnt : countFree univ (alKeys (alInsert nbr (d + 1) v)) + 1 =
            countFree univ (alKeys v) := by
          rw [countFree_congr univ _ (nbr :: alKeys v) (fun b _ => hkeys b)]
          exact countFree_insert univ (alKeys v) nbr hU hnbr hnbr_notkey
        have hget_ins : ∀ x, (alGet x (alInsert nbr (d + 1) v)).isSome ↔
            x = nbr ∨ (alGet x v).isSome := by
          intro x
          rw [← mem_alKeys_iff_isSome, hkeys, List.mem_cons, mem_alKeys_iff_isSome]
        refine ⟨?_, ?_, ?_, ?_, ?_, ?_, ?_⟩
        · rw [m1]
          simp only [List.length_append, List.length_singleton]
          omega
        · intro x hx
          exact m2 x ((hget_ins x).mpr (Or.inr hx))
        · intro x hx
          exact m3 x (List.mem_append_left _ hx)
        · intro x
          rw [m4 x]
          constructor
          · rintro (hx | ⟨hx2, hx3⟩)
            · rcases List.mem_append.mp hx with hx | hx
              · exact Or.inl hx
              · rcases List.mem_singleton.mp hx with rfl
                exact Or.inr ⟨m2 x ((hget_ins x).mpr (Or.inl rfl)), hmem⟩
            · refine Or.inr ⟨hx2, fun hxv => hx3 ((hget_ins x).mpr (Or.inr hxv))⟩
          · rintro (hx | ⟨hx2, hx3⟩)
            · exact Or.inl (List.mem_append_left _ hx)
            · by_cases hxn : x = nbr
              · subst hxn
                exact Or.inl (List.mem_append_right _ (List.mem_singleton.mpr rfl))
              · refine Or.inr ⟨hx2, fun hxv => ?_⟩
                rcases (hget_ins x).mp hxv with h | h
                · exact hxn h
                · exact hx3 h
        · intro x hx
          rcases m5 x hx with h | h
          · rcases (hget_ins x).mp h with rfl | h2
            · exact Or.inr (List.mem_cons_self _ _)
            · exact Or.inl h2
          · exact Or.inr (List.mem_cons_of_mem _ h)
        · intro y hy
          rcases List.mem_cons.mp hy with h | h
          · exact m2 y ((hget_ins y).mpr (Or.inl h))
          · exact m6 y h
        · intro hnd
          exact m7 (alKeys_nodup_alInsert nbr (d + 1) v hnd)

/-- Master invariant lemma for the BFS of compute_closeness. -/
theorem bfsDist_spec (g : AList (List Nat)) (A : Nat → Nat → Prop)
    (hA : ∀ u y, y ∈ neighborsOf g u → A u y)
    (hclosed : ∀ u y, y ∈ neighborsOf g u → y ∈ alKeys g) (s : Nat) :
    ∀ (fuel : Nat) (queue : List Nat) (visited : AList Nat),
      (∀ x ∈ queue, (alGet x visited).isSome) →
      (∀ x, (alGet x visited).isSome → x ∉ queue →
        ∀ y ∈ neighborsOf g x, (alGet y visited).isSome) →
      (∀ x, (alGet x visited).isSome → Relation.ReflTransGen A s x) →
      (alKeys visited).Nodup →
      queue.length + countFree (alKeys g).dedup (alKeys visited) ≤ fuel →
      (∀ x, (alGet x visited).isSome →
        (alGet x (bfsDist g fuel queue visited)).isSome) ∧
      (∀ x, (alGet x (bfsDist g fuel queue visited)).isSome →
        Relation.ReflTransGen A s x) ∧
      (∀ x, (alGet x (bfsDist g fuel queue visited)).isSome →
        ∀ y ∈ neighborsOf g x, (alGet y (bfsDist g fuel queue visited)).isSome) ∧
      (alKeys (bfsDist g fuel queue visited)).Nodup := by
  intro fuel
  induction fuel with
  | zero =>
      intro queue visited h1 h2 h3 h4 hm
      have hq0 : queue = [] := by
        have : queue.length = 0 := by omega
        exact List.eq_nil_of_length_eq_zero this
      subst hq0
      simp only [bfsDist]
      exact ⟨fun x hx => hx, h3,
        fun x hx => h2 x hx (List.not_mem_nil x), h4⟩
  | succ fuel ih =>
      intro queue visited h1 h2 h3 h4 hm
      cases queue with
      | nil =>
          simp only [bfsDist]
          exact ⟨fun x hx => hx, h3,
            fun x hx => h2 x hx (List.not_mem_nil x), h4⟩
      | cons node rest =>
          rw [bfsDist_cons]
          obtain ⟨m1, m2, m3, m4, m5, m6, m7⟩ :=
            foldDist_spec (alKeys g).dedup (List.nodup_dedup _)
              ((alGet node visited).getD 0) (neighborsOf g node)
              (fun y hy => List.mem_dedup.mpr (hclosed node y hy)) rest visited
          have hnodeR : Relation.ReflTransGen A s node :=
            h3 node (h1 node (List.mem_cons_self _ _))
          obtain ⟨c1, c2, c3, c4⟩ :=
            ih ((neighborsOf g node).foldl (stepDist ((alGet node visited).getD 0))
                (rest, visited)).1
              ((neighborsOf g node).foldl (stepDist ((alGet node visited).getD 0))
                (rest, visited)).2
              (by
                intro x hx
                rcases (m4 x).mp hx with h | h
                · exact m2 x (h1 x (List.mem_cons_of_mem _ h))
                · exact h.1)
              (by
                intro x hx hxq y hy
                by_cases hxv : (alGet x visited).isSome
                · by_cases hxnode : x = node
                  · exact m6 y (hxnode ▸ hy)
                  · have hxq0 : x ∉ node :: rest := by
                      intro hx2
                      rcases List.mem_cons.mp hx2 with h | h
                      · exact hxnode h
                      · exact hxq (m3 x h)
                    exact m2 y (h2 x hxv hxq0 y hy)
                · exact absurd ((m4 x).mpr (Or.inr ⟨hx, hxv⟩)) hxq)
              (by
                intro x hx
                rcases m5 x hx with h | h
                · exact h3 x h
                · exact Relation.ReflTransGen.tail hnodeR (hA node x h))
              (m7 h4)
              (by
                simp only [List.length_cons] at hm
                omega)
          exact ⟨fun x hx => c1 x (m2 x hx), c2, c3, c4⟩

theorem alGet_single_isSome (s x v : Nat) :
    (alGet x (alInsert s v ([] : AList Nat))).isSome ↔ x = s := by
  show (alGet x [(s, v)]).isSome ↔ x = s
  simp only [alGet_cons, alGet_nil]
  by_cases h : s = x
  · simp [h]
  · rw [if_neg h]
    simp only [Option.isSome_none, Bool.false_eq_true, false_iff]
    exact fun h2 => h h2.symm

/-- One closeness BFS visits exactly the reachability class of its source,
with no duplicate keys. -/
theorem bfsDistRun (edges : List (Nat × Nat)) (s : Nat) :
    (∀ x, (alGet x (bfsDist (buildGraph edges) (graphFuel (buildGraph edges)) [s]
        (alInsert s 0 []))).isSome ↔ Reach edges s x) ∧
    (alKeys (bfsDist (buildGraph edges) (graphFuel (buildGraph edges)) [s]
        (alInsert s 0 []))).Nodup := by
  obtain ⟨c1, c2, c3, c4⟩ :=
    bfsDist_spec (buildGraph edges) (Adj edges)
      (fun u y hy => (mem_neighborsOf_buildGraph edges u y).mp hy)
      (fun u y hy => neighborsOf_buildGraph_closed edges hy) s
      (graphFuel (buildGraph edges)) [s] (alInsert s 0 [])
      (by
        intro x hx
        rcases List.mem_singleton.mp hx with rfl
        simp)
      (by
        intro x hx hxq
        exact absurd (List.mem_singleton.mpr ((alGet_single_isSome s x 0).mp hx)) hxq)
      (by
        intro x hx
        rcases (alGet_single_isSome s x 0).mp hx with rfl
        exact Relation.ReflTransGen.refl)
      (by simp [alInsert, alKeys])
      (by
        have h := countFree_le_length (alKeys (buildGraph edges)).dedup
          (alKeys (alInsert s 0 []))
        simp only [List.length_singleton, graphFuel]
        omega)
  refine ⟨fun x => ⟨c2 x, ?_⟩, c4⟩
  intro hreach
  induction hreach with
  | refl => exact c1 s (by simp)
  | tail hab hbc ih =>
      rename_i b c
      exact c3 b ih c ((mem_neighborsOf_buildGraph edges b c).mpr hbc)

theorem foldInsert_lookup (f : Nat → ℚ) :
    ∀ (S : List Nat) (m : AList ℚ) (s : Nat),
      (s ∈ S ∨ alGet s m = some (f s)) →
      alGet s (S.foldl (fun cl t => alInsert t (f t) cl) m) = some (f s) := by
  intro S
  induction S with
  | nil =>
      intro m s h
      rcases h with h | h
      · exact absurd h (List.not_mem_nil s)
      · exact h
  | cons t rest ih =>
      intro m s h
      simp only [List.foldl_cons]
      by_cases hst : s = t
      · subst hst
        by_cases hm : s ∈ rest
        · exact ih _ s (Or.inl hm)
        · exact ih _ s (Or.inr (alGet_alInsert_self s (f s) m))
      · rcases h with h | h
        · rcases List.mem_cons.mp h with h2 | h2
          · exact absurd h2 hst
          · exact ih _ s (Or.inl h2)
        · refine ih _ s (Or.inr ?_)
          rw [alGet_alInsert_ne (fun h2 => hst h2.symm)]
          exact h

/-- C5: for every node s of the requested subset, compute_closeness maps s
to (visited count - 1) / (sum of BFS hop-distances) when that sum is
positive and to 0 otherwise, and the BFS visited map enumerates exactly the
nodes reachable from s (each exactly once) — so the distances summed are
taken over s's own reachable set only, not the whole graph. -/
theorem compute_closeness_correct (edges : List (Nat × Nat)) (S : List Nat) (s : Nat)
    (hs : s ∈ S) :
    alGet s (compute_closeness edges S) =
      some (if 0 < ((bfsDist (buildGraph edges) (graphFuel (buildGraph edges)) [s]
            (alInsert s 0 [])).map Prod.snd).sum
        then (((bfsDist (buildGraph edges) (graphFuel (buildGraph edges)) [s]
            (alInsert s 0 [])).length - 1 : Nat) : ℚ) /
          ((((bfsDist (buildGraph edges) (graphFuel (buildGraph edges)) [s]
            (alInsert s 0 [])).map Prod.snd).sum : Nat) : ℚ)
        else 0) ∧
    (∀ x, (alGet x (bfsDist (buildGraph edges) (graphFuel (buildGraph edges)) [s]
        (alInsert s 0 []))).isSome ↔ Reach edges s x) ∧
    (alKeys (bfsDist (buildGraph edges) (graphFuel (buildGraph edges)) [s]
        (alInsert s 0 []))).Nodup := by
  obtain ⟨hiff, hnodup⟩ := bfsDistRun edges s
  exact ⟨foldInsert_lookup (closenessScore edges) S [] s (Or.inl hs), hiff, hnodup⟩

/-- Witness for C5 at edges = [], S = [5]: node 5 is isolated, the reachable
set is the singleton, the distance sum is 0, and the score is 0. -/
theorem compute_closeness_correct_witness :
    alGet 5 (compute_closeness [] [5]) = some 0 := by
  have h := (compute_closeness_correct [] [5] 5 (by decide)).1
  rw [h]
  rfl

theorem bfsDist_nil_queue (g : AList (List Nat)) :
    ∀ (fuel : Nat) (v : AList Nat), bfsDist g fuel [] v = v := by
  intro fuel v
  cases fuel <;> rfl

/-- For an untouched source, the closeness BFS visits only the source with
distance 0 and the score is 0 (the total_distance > 0 guard). -/
theorem closenessScore_isolated (edges : List (Nat × Nat)) (s : Nat)
    (h : ¬ Touched edges s) : closenessScore edges s = 0 := by
  have hkey : s ∉ alKeys (buildGraph edges) :=
    fun h2 => h ((mem_alKeys_buildGraph edges s).mp h2)
  have hget : alGet s (buildGraph edges) = none := by
    rcases h2 : alGet s (buildGraph edges) with _ | l
    · rfl
    · exact absurd ((mem_alKeys_iff_isSome s (buildGraph edges)).mpr (by rw [h2]; rfl)) hkey
  have hnbrs : neighborsOf (buildGraph edges) s = [] := by
    rw [neighborsOf, hget]
    rfl
  have hrun : bfsDist (buildGraph edges) (graphFuel (buildGraph edges)) [s]
      (alInsert s 0 []) = alInsert s 0 [] := by
    rw [graphFuel, bfsDist_cons, hnbrs]
    simp only [List.foldl_nil]
    exact bfsDist_nil_queue _ _ _
  rw [closenessScore]
  simp only [hrun]
  rfl

theorem betweennessFold_none (g : AList (List Nat)) :
    ∀ S : List Nat, S.foldl (betweennessFoldStep g) none = none := by
  intro S
  induction S with
  | nil => rfl
  | cons s rest ih => simpa [betweennessFoldStep] using ih

theorem brandesSource_isolated (edges : List (Nat × Nat)) (cent : AList ℚ) (s : Nat)
    (h : ¬ Touched edges s) : brandesSource (buildGraph edges) cent s = none := by
  have hkey : s ∉ alKeys (buildGraph edges) :=
    fun h2 => h ((mem_alKeys_buildGraph edges s).mp h2)
  have hget : alGet s (buildGraph edges) = none := by
    rcases h2 : alGet s (buildGraph edges) with _ | l
    · rfl
    · exact absurd ((mem_alKeys_iff_isSome s (buildGraph edges)).mpr (by rw [h2]; rfl)) hkey
  rw [brandesSource, graphFuel]
  simp only [brandesBFS, hget]

/-- C2 counterexample: on the empty edge list with node subset containing
only the isolated node 5, compute_betweenness hits the panicking
graph[&5] HashMap index (modelled as none) instead of returning a 0.0
score for node 5. -/
theorem compute_betweenness_isolated_counterexample :
    compute_betweenness [] [5] = none := rfl

/-- C2 amended: for a nonempty node subset of all-isolated nodes,
compute_closeness returns 0.0 for every member (no NaN or division fault),
but compute_betweenness panics on the graph[&s] index of the first
isolated source instead of returning 0.0 scores. -/
theorem isolated_nodes_behavior (edges : List (Nat × Nat)) (S : List Nat)
    (hne : S ≠ []) (hiso : ∀ s ∈ S, ¬ Touched edges s) :
    (∀ s ∈ S, alGet s (compute_closeness edges S) = some 0) ∧
    compute_betweenness edges S = none := by
  constructor
  · intro s hs
    have h := foldInsert_lookup (closenessScore edges) S [] s (Or.inl hs)
    rw [closenessScore_isolated edges s (hiso s hs)] at h
    exact h
  · cases S with
    | nil => exact absurd rfl hne
    | cons s rest =>
        rw [compute_betweenness]
        simp only [List.foldl_cons]
        rw [show betweennessFoldStep (buildGraph edges) (some []) s =
            brandesSource (buildGraph edges) [] s from rfl]
        rw [brandesSource_isolated edges [] s (hiso s (List.mem_cons_self _ _))]
        rw [betweennessFold_none]

/-- Witness for the amended C2 at edges = [], S = [5]. -/
theorem isolated_nodes_behavior_witness :
    (∀ s ∈ [5], alGet s (compute_closeness [] [5]) = some 0) ∧
    compute_betweenness [] [5] = none :=
  isolated_nodes_behavior [] [5] (by decide)
    (by
      intro s hs
      rintro ⟨e, he, _⟩
      exact absurd he (List.not_mem_nil e))

theorem initSigma_getD (g : AList (List Nat)) :
    ∀ x, alGet x (initSigma g) = none ∨ alGet x (initSigma g) = some 0 := by
  have haux : ∀ (l : AList (List Nat)) (m : AList ℚ),
      (∀ x, alGet x m = none ∨ alGet x m = some 0) →
      ∀ x, alGet x (l.foldl (fun m e => alInsert e.1 0 m) m) = none ∨
        alGet x (l.foldl (fun m e => alInsert e.1 0 m) m) = some 0 := by
    intro l
    induction l with
    | nil => intro m hm x; exact hm x
    | cons e rest ih =>
        intro m hm x
        simp only [List.foldl_cons]
        refine ih _ ?_ x
        intro y
        by_cases hy : e.1 = y
        · subst hy
          rw [alGet_alInsert_self]
          exact Or.inr rfl
        · rw [alGet_alInsert_ne hy]
          exact hm y
  exact haux g [] (fun x => Or.inl rfl)

theorem foldBrandes_spec (v d : Nat) :
    ∀ (nbrs q : List Nat) (dist : AList Nat) (sigma : AList ℚ)
      (pred : AList (List Nat)),
      (alGet v dist).isSome →
      (∀ x ∈ q, (alGet x dist).isSome) →
      (∀ x, (alGet x dist).isSome → 1 ≤ (alGet x sigma).getD 0) →
      (∀ x, 0 ≤ (alGet x sigma).getD 0) →
      (∀ x, (alGet x dist).isSome →
        (alGet x (nbrs.foldl (stepBrandes v d) (q, dist, sigma, pred)).2.1).isSome) ∧
      (∀ x ∈ (nbrs.foldl (stepBrandes v d) (q, dist, sigma, pred)).1,
        (alGet x (nbrs.foldl (stepBrandes v d) (q, dist, sigma, pred)).2.1).isSome) ∧
      (∀ x, (alGet x (nbrs.foldl (stepBrandes v d) (q, dist, sigma, pred)).2.1).isSome →
        1 ≤ (alGet x (nbrs.foldl (stepBrandes v d) (q, dist, sigma, pred)).2.2.1).getD 0) ∧
      (∀ x, 0 ≤ (alGet x (nbrs.foldl (stepBrandes v d) (q, dist, sigma, pred)).2.2.1).getD 0) := by
  intro nbrs
  induction nbrs with
  | nil =>
      intro q dist sigma pred hv hq hc hd
      exact ⟨fun x hx => hx, hq, hc, hd⟩
  | cons w rest ih =>
      intro q dist sigma pred hv hq hc hd
      simp only [List.foldl_cons]
      by_cases hA : (alGet w dist).isSome
      · -- w already known: dist and queue unchanged
        have hstep : stepBrandes v d (q, dist, sigma, pred) w =
            if (alGet w dist).getD 0 = d + 1 then
              (q, dist,
               alInsert w ((alGet w sigma).getD 0 + (alGet v sigma).getD 0) sigma,
               alInsert w (((alGet w pred).getD []) ++ [v]) pred)
            else (q, dist, sigma, pred) := by
          simp only [stepBrandes, if_pos hA]
        by_cases hB : (alGet w dist).getD 0 = d + 1
        · rw [hstep, if_pos hB]
          refine ih q dist _ _ hv hq ?_ ?_
          · intro x hx
            by_cases hxw : w = x
            · subst hxw
              rw [alGet_alInsert_self]
              have h1 : 1 ≤ (alGet w sigma).getD 0 := hc w hA
              have h2 : 0 ≤ (alGet v sigma).getD 0 := hd v
              simp only [Option.getD_some]
              linarith
            · rw [alGet_alInsert_ne hxw]
              exact hc x hx
          · intro x
            by_cases hxw : w = x
            · subst hxw
              rw [alGet_alInsert_self]
              have h1 : 0 ≤ (alGet w sigma).getD 0 := hd w
              have h2 : 0 ≤ (alGet v sigma).getD 0 := hd v
              simp only [Option.getD_some]
              linarith
            · rw [alGet_alInsert_ne hxw]
              exact hd x
        · rw [hstep, if_neg hB]
          exact ih q dist sigma pred hv hq hc hd
      · -- w fresh: inserted into dist at d+1, pushed, sigma seeded from v
        have hstep : stepBrandes v d (q, dist, sigma, pred) w =
            (q ++ [w], alInsert w (d + 1) dist,
             alInsert w ((alGet w sigma).getD 0 + (alGet v sigma).getD 0) sigma,
             alInsert w (((alGet w pred).getD []) ++ [v]) pred) := by
          simp only [stepBrandes, if_neg hA]
          rw [if_pos]
          rw [alGet_alInsert_self]
          rfl
        rw [hstep]
        have hd2 : ∀ x, (alGet x dist).isSome → (alGet x (alInsert w (d + 1) dist)).isSome := by
          intro x hx
          by_cases hxw : w = x
          · subst hxw
            rw [alGet_alInsert_self]
            rfl
          · rw [alGet_alInsert_ne hxw]
            exact hx
        obtain ⟨c1, c2, c3, c4⟩ := ih (q ++ [w]) (alInsert w (d + 1) dist)
          (alInsert w ((alGet w sigma).getD 0 + (alGet v sigma).getD 0) sigma)
          (alInsert w (((alGet w pred).getD []) ++ [v]) pred)
          (hd2 v hv)
          (by
            intro x hx
            rcases List.mem_append.mp hx with h | h
            · exact hd2 x (hq x h)
            · rcases List.mem_singleton.mp h with rfl
              rw [alGet_alInsert_self]
              rfl)
          (by
            intro x hx
            by_cases hxw : w = x
            · subst hxw
              rw [alGet_alInsert_self]
              have h1 : 0 ≤ (alGet w sigma).getD 0 := hd w
              have h2 : 1 ≤ (alGet v sigma).getD 0 := hc v hv
              simp only [Option.getD_some]
              linarith
            · rw [alGet_alInsert_ne hxw]
              refine hc x ?_
              rw [alGet_alInsert_ne hxw] at hx
              exact hx
            )
          (by
            intro x
            by_cases hxw : w = x
            · subst hxw
              rw [alGet_alInsert_self]
              have h1 : 0 ≤ (alGet w sigma).getD 0 := hd w
              have h2 : 0 ≤ (alGet v sigma).getD 0 := hd v
              simp only [Option.getD_some]
              linarith
            · rw [alGet_alInsert_ne hxw]
              exact hd x)
        exact ⟨fun x hx => c1 x (hd2 x hx), c2, c3, c4⟩

theorem brandesBFS_inv (g : AList (List Nat)) :
    ∀ (fuel : Nat) (queue stack : List Nat) (dist : AList Nat) (sigma : AList ℚ)
      (pred : AList (List Nat)) (stackF : List Nat) (distF : AList Nat)
      (sigmaF : AList ℚ) (predF : AList (List Nat)),
      (∀ x ∈ queue, (alGet x dist).isSome) →
      (∀ x ∈ stack, (alGet x dist).isSome) →
      (∀ x, (alGet x dist).isSome → 1 ≤ (alGet x sigma).getD 0) →
      (∀ x, 0 ≤ (alGet x sigma).getD 0) →
      brandesBFS g fuel queue stack dist sigma pred =
        some (stackF, distF, sigmaF, predF) →
      (∀ x ∈ stackF, (alGet x distF).isSome) ∧
      (∀ x, (alGet x distF).isSome → 1 ≤ (alGet x sigmaF).getD 0) ∧
      (∀ x, 0 ≤ (alGet x sigmaF).getD 0) := by
  intro fuel
  induction fuel with
  | zero =>
      intro queue stack dist sigma pred stackF distF sigmaF predF hq hs hc hd heq
      simp only [brandesBFS, Option.some.injEq, Prod.mk.injEq] at heq
      obtain ⟨rfl, rfl, rfl, rfl⟩ := heq
      exact ⟨hs, hc, hd⟩
  | succ fuel ih =>
      intro queue stack dist sigma pred stackF distF sigmaF predF hq hs hc hd heq
      cases queue with
      | nil =>
          simp only [brandesBFS, Option.some.injEq, Prod.mk.injEq] at heq
          obtain ⟨rfl, rfl, rfl, rfl⟩ := heq
          exact ⟨hs, hc, hd⟩
      | cons v rest =>
          simp only [brandesBFS] at heq
          rcases hg : alGet v g with _ | nbrs
          · rw [hg] at heq
            exact absurd heq (by simp)
          · rw [hg] at heq
            have hv : (alGet v dist).isSome := hq v (List.mem_cons_self _ _)
            obtain ⟨c1, c2, c3, c4⟩ :=
              foldBrandes_spec v ((alGet v dist).getD 0) nbrs rest dist sigma pred hv
                (fun x hx => hq x (List.mem_cons_of_mem _ hx)) hc hd
            refine ih _ _ _ _ _ _ _ _ _ c2
              (by
                intro x hx
                rcases List.mem_append.mp hx with h | h
                · exact c1 x (hs x h)
                · rcases List.mem_singleton.mp h with rfl
                  exact c1 x hv)
              c3 c4 heq

/-- C7: in every per-source Brandes pass (exactly as compute_betweenness
invokes it), every node on the traversal stack has sigma at least 1 in the
final sigma map — the one the dependency coefficients (1 + delta v) /
sigma v divide by — so no coefficient divides by zero. -/
theorem brandes_sigma_ge_one (edges : List (Nat × Nat)) (s : Nat)
    (stackF : List Nat) (distF : AList Nat) (sigmaF : AList ℚ)
    (predF : AList (List Nat))
    (h : brandesBFS (buildGraph edges) (graphFuel (buildGraph edges)) [s] []
        (alInsert s 0 []) (alInsert s 1 (initSigma (buildGraph edges)))
        (initPred (buildGraph edges)) = some (stackF, distF, sigmaF, predF)) :
    ∀ v ∈ stackF, 1 ≤ (alGet v sigmaF).getD 0 := by
  obtain ⟨c1, c2, c3⟩ :=
    brandesBFS_inv (buildGraph edges) (graphFuel (buildGraph edges)) [s] []
      (alInsert s 0 []) (alInsert s 1 (initSigma (buildGraph edges)))
      (initPred (buildGraph edges)) stackF distF sigmaF predF
      (by
        intro x hx
        rcases List.mem_singleton.mp hx with rfl
        rw [alGet_alInsert_self]
        rfl)
      (fun x hx => absurd hx (List.not_mem_nil x))
      (by
        intro x hx
        rcases (alGet_single_isSome s x 0).mp hx with rfl
        rw [alGet_alInsert_self]
        simp)
      (by
        intro x
        by_cases hxs : s = x
        · subst hxs
          rw [alGet_alInsert_self]
          simp
        · rw [alGet_alInsert_ne hxs]
          rcases initSigma_getD (buildGraph edges) x with h2 | h2 <;> simp [h2])
      h
  exact fun v hv => c2 v (c1 v hv)

/-- Witness for C7: the Brandes BFS on the single edge (1,2) from source 1
terminates with stack [1,2] and both sigma values at least 1. -/
theorem brandes_sigma_ge_one_witness :
    brandesBFS (buildGraph [(1, 2)]) (graphFuel (buildGraph [(1, 2)])) [1] []
        (alInsert 1 0 []) (alInsert 1 1 (initSigma (buildGraph [(1, 2)])))
        (initPred (buildGraph [(1, 2)])) =
      some ([1, 2], [(1, 0), (2, 1)], [(1, (1 : ℚ)), (2, (0 + 1 : ℚ))],
        [(1, ([] : List Nat)), (2, [1])]) ∧
    (∀ v ∈ [1, 2], 1 ≤ (alGet v [(1, (1 : ℚ)), (2, (0 + 1 : ℚ))]).getD 0) := by
  have e : brandesBFS (buildGraph [(1, 2)]) (graphFuel (buildGraph [(1, 2)])) [1] []
      (alInsert 1 0 []) (alInsert 1 1 (initSigma (buildGraph [(1, 2)])))
      (initPred (buildGraph [(1, 2)])) =
      some ([1, 2], [(1, 0), (2, 1)], [(1, (1 : ℚ)), (2, (0 + 1 : ℚ))],
        [(1, ([] : List Nat)), (2, [1])]) := rfl
  exact ⟨e, brandes_sigma_ge_one [(1, 2)] 1 _ _ _ _ e⟩

theorem alGet_eq_some_mem {α : Type} {m : AList α} {x : Nat} {q : α}
    (h : alGet x m = some q) : (x, q) ∈ m := by
  induction m with
  | nil => simp [alGet] at h
  | cons e rest ih =>
      obtain ⟨k, v⟩ := e
      rw [alGet_cons] at h
      by_cases hk : k = x
      · rw [if_pos hk] at h
        injection h with h
        subst hk
        subst h
        exact List.mem_cons_self _ _
      · rw [if_neg hk] at h
        exact List.mem_cons_of_mem _ (ih h)

theorem getD_nonneg_of_entries {m : AList ℚ} (h : ∀ e ∈ m, 0 ≤ e.2) :
    ∀ x, 0 ≤ (alGet x m).getD 0 := by
  intro x
  rcases h2 : alGet x m with _ | q
  · simp
  · simpa using h (x, q) (alGet_eq_some_mem h2)

theorem mem_alInsert {α : Type} {e : Nat × α} {k : Nat} {v : α} {m : AList α}
    (h : e ∈ alInsert k v m) : e = (k, v) ∨ e ∈ m := by
  induction m with
  | nil => simpa [alInsert] using h
  | cons e2 rest ih =>
      obtain ⟨k2, w⟩ := e2
      rw [alInsert_cons] at h
      by_cases hk : k2 = k
      · rw [if_pos hk] at h
        subst hk
        rcases List.mem_cons.mp h with h2 | h2
        · exact Or.inl h2
        · exact Or.inr (List.mem_cons_of_mem _ h2)
      · rw [if_neg hk] at h
        rcases List.mem_cons.mp h with h2 | h2
        · exact Or.inr (h2 ▸ List.mem_cons_self _ _)
        · rcases ih h2 with h3 | h3
          · exact Or.inl h3
          · exact Or.inr (List.mem_cons_of_mem _ h3)

theorem deltaFold_nonneg (sigma : AList ℚ) (coeff : ℚ) (hc : 0 ≤ coeff)
    (hsig : ∀ x, 0 ≤ (alGet x sigma).getD 0) :
    ∀ (ps : List Nat) (dl : AList ℚ), (∀ x, 0 ≤ (alGet x dl).getD 0) →
      ∀ x, 0 ≤ (alGet x (ps.foldl (fun dl p =>
        alInsert p ((alGet p dl).getD 0 + (alGet p sigma).getD 0 * coeff) dl) dl)).getD 0 := by
  intro ps
  induction ps with
  | nil => intro dl hdl x; exact hdl x
  | cons p rest ih =>
      intro dl hdl x
      simp only [List.foldl_cons]
      refine ih _ ?_ x
      intro y
      by_cases hy : p = y
      · subst hy
        rw [alGet_alInsert_self]
        have h1 := hdl p
        have h2 := mul_nonneg (hsig p) hc
        simp only [Option.getD_some]
        linarith
      · rw [alGet_alInsert_ne hy]
        exact hdl y

theorem brandesAccum_entries_nonneg (s : Nat) (sigma : AList ℚ)
    (pred : AList (List Nat)) (hsig : ∀ x, 0 ≤ (alGet x sigma).getD 0) :
    ∀ (st : List Nat) (delta cent : AList ℚ),
      (∀ x, 0 ≤ (alGet x delta).getD 0) → (∀ e ∈ cent, 0 ≤ e.2) →
      ∀ e ∈ brandesAccum s sigma pred st delta cent, 0 ≤ e.2 := by
  intro st
  induction st with
  | nil => intro delta cent _ hcent e he; exact hcent e he
  | cons v rest ih =>
      intro delta cent hdelta hcent e he
      simp only [brandesAccum] at he
      have hcoeff : 0 ≤ (1 + (alGet v delta).getD 0) / (alGet v sigma).getD 0 := by
        have h1 := hdelta v
        have h2 := hsig v
        apply div_nonneg _ h2
        linarith
      have hdelta2 := deltaFold_nonneg sigma _ hcoeff hsig ((alGet v pred).getD []) delta hdelta
      refine ih _ _ hdelta2 ?_ e he
      by_cases hvs : v ≠ s
      · simp only [if_pos hvs]
        intro e2 he2
        rcases mem_alInsert he2 with h2 | h2
        · subst h2
          have h3 := getD_nonneg_of_entries hcent v
          have h4 := hdelta2 v
          simp only
          linarith
        · exact hcent e2 h2
      · simp only [if_neg hvs]
        exact hcent

theorem brandesSource_entries_nonneg (g : AList (List Nat)) (cent : AList ℚ) (s : Nat)
    (hcent : ∀ e ∈ cent, 0 ≤ e.2) (cent2 : AList ℚ)
    (h : brandesSource g cent s = some cent2) : ∀ e ∈ cent2, 0 ≤ e.2 := by
  rw [brandesSource] at h
  rcases hb : brandesBFS g (graphFuel g) [s] [] (alInsert s 0 [])
      (alInsert s 1 (initSigma g)) (initPred g) with _ | st4
  · rw [hb] at h
    exact absurd h (by simp)
  · rw [hb] at h
    obtain ⟨stackF, distF, sigmaF, predF⟩ := st4
    obtain ⟨c1, c2, c3⟩ :=
      brandesBFS_inv g (graphFuel g) [s] [] (alInsert s 0 [])
        (alInsert s 1 (initSigma g)) (initPred g) stackF distF sigmaF predF
        (by
          intro x hx
          rcases List.mem_singleton.mp hx with rfl
          rw [alGet_alInsert_self]
          rfl)
        (fun x hx => absurd hx (List.not_mem_nil x))
        (by
          intro x hx
          rcases (alGet_single_isSome s x 0).mp hx with rfl
          rw [alGet_alInsert_self]
          simp)
        (by
          intro x
          by_cases hxs : s = x
          · subst hxs
            rw [alGet_alInsert_self]
            simp
          · rw [alGet_alInsert_ne hxs]
            rcases initSigma_getD g x with h2 | h2 <;> simp [h2])
        hb
    simp only [Option.some.injEq] at h
    subst h
    exact brandesAccum_entries_nonneg s sigmaF predF c3 stackF.reverse [] cent
      (by intro x; simp) hcent

theorem betweennessFold_entries_nonneg (g : AList (List Nat)) :
    ∀ (S : List Nat) (c : Option (AList ℚ)) (cent : AList ℚ),
      S.foldl (betweennessFoldStep g) c = some cent →
      (∀ cent0, c = some cent0 → ∀ e ∈ cent0, 0 ≤ e.2) →
      ∀ e ∈ cent, 0 ≤ e.2 := by
  intro S
  induction S with
  | nil =>
      intro c cent hfold hc
      exact hc cent hfold
  | cons s rest ih =>
      intro c cent hfold hc
      simp only [List.foldl_cons] at hfold
      rcases c with _ | cent0
      · rw [show betweennessFoldStep g none s = none from rfl] at hfold
        rw [betweennessFold_none] at hfold
        exact absurd hfold (by simp)
      · rw [show betweennessFoldStep g (some cent0) s = brandesSource g cent0 s
            from rfl] at hfold
        rcases hs : brandesSource g cent0 s with _ | cent1
        · rw [hs] at hfold
          rw [betweennessFold_none] at hfold
          exact absurd hfold (by simp)
        · rw [hs] at hfold
          refine ih _ _ hfold ?_
          intro cent2 hc2
          injection hc2 with hc2
          subst hc2
          exact brandesSource_entries_nonneg g cent0 s
            (hc cent0 rfl) cent1 hs

theorem listMax0Aux_init_le (l : List ℚ) : ∀ a, a ≤ listMax0Aux a l := by
  induction l with
  | nil => intro a; exact le_refl a
  | cons v rest ih =>
      intro a
      unfold listMax0Aux at ih ⊢
      simp only [List.foldl_cons]
      by_cases h : v > a
      · rw [if_pos h]
        exact le_of_lt (lt_of_lt_of_le h (ih v))
      · rw [if_neg h]
        exact ih a

theorem listMax0Aux_mem_le (l : List ℚ) : ∀ a, ∀ v ∈ l, v ≤ listMax0Aux a l := by
  induction l with
  | nil => intro a v hv; exact absurd hv (List.not_mem_nil v)
  | cons w rest ih =>
      intro a v hv
      unfold listMax0Aux at ih ⊢
      simp only [List.foldl_cons]
      rcases List.mem_cons.mp hv with rfl | hv2
      · by_cases h : v > a
        · rw [if_pos h]
          exact listMax0Aux_init_le rest v
        · rw [if_neg h]
          exact le_trans (not_lt.mp h) (listMax0Aux_init_le rest a)
      · by_cases h : w > a
        · rw [if_pos h]
          exact ih w v hv2
        · rw [if_neg h]
          exact ih a v hv2

theorem listMax0Aux_eq_or_mem (l : List ℚ) : ∀ a, listMax0Aux a l = a ∨ listMax0Aux a l ∈ l := by
  induction l with
  | nil => intro a; exact Or.inl rfl
  | cons w rest ih =>
      intro a
      unfold listMax0Aux at ih ⊢
      simp only [List.foldl_cons]
      by_cases h : w > a
      · rw [if_pos h]
        rcases ih w with h2 | h2
        · rw [h2]
          exact Or.inr (List.mem_cons_self _ _)
        · exact Or.inr (List.mem_cons_of_mem _ h2)
      · rw [if_neg h]
        rcases ih a with h2 | h2
        · exact Or.inl h2
        · exact Or.inr (List.mem_cons_of_mem _ h2)

theorem listMax0_nonneg (l : List ℚ) : 0 ≤ listMax0 l := listMax0Aux_init_le l 0

theorem listMax0_ge (l : List ℚ) : ∀ v ∈ l, v ≤ listMax0 l := listMax0Aux_mem_le l 0

theorem listMax0_mem_of_pos (l : List ℚ) (h : 0 < listMax0 l) : listMax0 l ∈ l := by
  rcases listMax0Aux_eq_or_mem l 0 with h2 | h2
  · rw [listMax0] at h
    rw [h2] at h
    exact absurd h (lt_irrefl 0)
  · exact h2

theorem listMax0_of_nonpos (l : List ℚ) (h : ∀ v ∈ l, v ≤ 0) : listMax0 l = 0 := by
  rcases listMax0Aux_eq_or_mem l 0 with h2 | h2
  · exact h2
  · exact le_antisymm (h _ h2) (listMax0_nonneg l)

theorem maxTriple_eq_aux (fs : AList Feat) :
    ∀ (a b c : ℚ),
      fs.foldl
        (fun acc e =>
          (if e.2.1 > acc.1 then e.2.1 else acc.1,
           if e.2.2.1 > acc.2.1 then e.2.2.1 else acc.2.1,
           if e.2.2.2 > acc.2.2 then e.2.2.2 else acc.2.2)) (a, b, c) =
      (listMax0Aux a (fs.map fun e => e.2.1),
       listMax0Aux b (fs.map fun e => e.2.2.1),
       listMax0Aux c (fs.map fun e => e.2.2.2)) := by
  induction fs with
  | nil => intro a b c; rfl
  | cons e rest ih =>
      intro a b c
      simp only [List.foldl_cons, List.map_cons]
      rw [ih]
      rfl

theorem maxTriple_eq (fs : AList Feat) :
    maxTriple fs =
      (listMax0 (fs.map fun e => e.2.1),
       listMax0 (fs.map fun e => e.2.2.1),
       listMax0 (fs.map fun e => e.2.2.2)) :=
  maxTriple_eq_aux fs 0 0 0

theorem normalize_features_map_fst (fs : AList Feat) :
    (normalize_features fs).map Prod.fst = fs.map Prod.fst := by
  simp [normalize_features, List.map_map]

theorem normalize_features_dim1 (fs : AList Feat) :
    (normalize_features fs).map (fun e => e.2.1) =
      (fs.map (fun e => e.2.1)).map
        (fun v => if (maxTriple fs).1 > 0 then v / (maxTriple fs).1 else v) := by
  simp only [normalize_features, List.map_map]
  rfl

theorem normalize_features_dim2 (fs : AList Feat) :
    (normalize_features fs).map (fun e => e.2.2.1) =
      (fs.map (fun e => e.2.2.1)).map
        (fun v => if (maxTriple fs).2.1 > 0 then v / (maxTriple fs).2.1 else v) := by
  simp only [normalize_features, List.map_map]
  rfl

theorem normalize_features_dim3 (fs : AList Feat) :
    (normalize_features fs).map (fun e => e.2.2.2) =
      (fs.map (fun e => e.2.2.2)).map
        (fun v => if (maxTriple fs).2.2 > 0 then v / (maxTriple fs).2.2 else v) := by
  simp only [normalize_features, List.map_map]
  rfl

/-- Per-dimension behavior on the list of raw values, positive-maximum case. -/
theorem scale_of_pos (l : List ℚ) (h : ∃ v ∈ l, 0 < v) :
    l.map (fun v => if listMax0 l > 0 then v / listMax0 l else v) =
        l.map (fun v => v / listMax0 l) ∧
      listMax0 l ∈ l ∧ 0 < listMax0 l ∧ (∀ v ∈ l, v ≤ listMax0 l) ∧
      (1 : ℚ) ∈ l.map (fun v => v / listMax0 l) ∧
      (∀ w ∈ l.map (fun v => v / listMax0 l), w ≤ 1) ∧
      (∀ v w : ℚ, v ≤ w → v / listMax0 l ≤ w / listMax0 l) := by
  obtain ⟨v0, hv0, hpos⟩ := h
  have hM : 0 < listMax0 l := lt_of_lt_of_le hpos (listMax0_ge l v0 hv0)
  have hmem : listMax0 l ∈ l := listMax0_mem_of_pos l hM
  refine ⟨?_, hmem, hM, listMax0_ge l, ?_, ?_, ?_⟩
  · apply List.map_congr_left
    intro v _
    rw [if_pos hM]
  · refine List.mem_map.mpr ⟨listMax0 l, hmem, ?_⟩
    exact div_self (ne_of_gt hM)
  · intro w hw
    obtain ⟨v, hv, rfl⟩ := List.mem_map.mp hw
    exact (div_le_one hM).mpr (listMax0_ge l v hv)
  · intro v w hvw
    exact div_le_div_of_nonneg_right hvw hM.le

/-- Per-dimension behavior, non-positive-maximum case (dimension untouched). -/
theorem scale_of_nonpos (l : List ℚ) (h : ∀ v ∈ l, v ≤ 0) :
    l.map (fun v => if listMax0 l > 0 then v / listMax0 l else v) = l := by
  have h0 : listMax0 l = 0 := listMax0_of_nonpos l h
  have : ∀ v ∈ l, (if listMax0 l > 0 then v / listMax0 l else v) = v := by
    intro v _
    rw [h0]
    simp
  calc l.map (fun v => if listMax0 l > 0 then v / listMax0 l else v)
      = l.map id := List.map_congr_left this
    _ = l := List.map_id l

/-- Packaging of scale_of_pos against an abstract post-normalization list. -/
theorem dim_spec_of_pos (pre post : List ℚ)
    (hpost : post = pre.map (fun v => if listMax0 pre > 0 then v / listMax0 pre else v))
    (h : ∃ v ∈ pre, 0 < v) :
    ∃ M, M ∈ pre ∧ 0 < M ∧ (∀ v ∈ pre, v ≤ M) ∧
      post = pre.map (fun v => v / M) ∧ (1 : ℚ) ∈ post ∧ (∀ w ∈ post, w ≤ 1) ∧
      (∀ v w : ℚ, v ≤ w → v / M ≤ w / M) := by
  obtain ⟨hmap, hmem, hM, hge, h1, hle, hord⟩ := scale_of_pos pre h
  rw [hmap] at hpost
  exact ⟨listMax0 pre, hmem, hM, hge, hpost, hpost ▸ h1, hpost ▸ hle, hord⟩

/-- Packaging of scale_of_nonpos against an abstract post-normalization list. -/
theorem dim_spec_of_nonpos (pre post : List ℚ)
    (hpost : post = pre.map (fun v => if listMax0 pre > 0 then v / listMax0 pre else v))
    (h : ∀ v ∈ pre, v ≤ 0) : post = pre := by
  rw [hpost]
  exact scale_of_nonpos pre h

/-- C6: normalize_features divides every value of a dimension with strictly
positive maximum by that (attained) maximum, making the post-normalization
maximum of the dimension exactly 1 and preserving relative order, leaves a
dimension with non-positive maximum untouched, and maps the example
input 1 maps to (2,4,8), 2 maps to (1,2,6) to 1 maps to (1,1,1),
2 maps to (1/2,1/2,3/4). -/
theorem normalize_features_correct :
    (∀ fs : AList Feat,
      ((∃ v ∈ fs.map (fun e => e.2.1), 0 < v) →
        ∃ M, M ∈ fs.map (fun e => e.2.1) ∧ 0 < M ∧
          (∀ v ∈ fs.map (fun e => e.2.1), v ≤ M) ∧
          (normalize_features fs).map (fun e => e.2.1) =
            (fs.map (fun e => e.2.1)).map (fun v => v / M) ∧
          (1 : ℚ) ∈ (normalize_features fs).map (fun e => e.2.1) ∧
          (∀ w ∈ (normalize_features fs).map (fun e => e.2.1), w ≤ 1) ∧
          (∀ v w : ℚ, v ≤ w → v / M ≤ w / M)) ∧
      ((∀ v ∈ fs.map (fun e => e.2.1), v ≤ 0) →
        (normalize_features fs).map (fun e => e.2.1) = fs.map (fun e => e.2.1)) ∧
      ((∃ v ∈ fs.map (fun e => e.2.2.1), 0 < v) →
        ∃ M, M ∈ fs.map (fun e => e.2.2.1) ∧ 0 < M ∧
          (∀ v ∈ fs.map (fun e => e.2.2.1), v ≤ M) ∧
          (normalize_features fs).map (fun e => e.2.2.1) =
            (fs.map (fun e => e.2.2.1)).map (fun v => v / M) ∧
          (1 : ℚ) ∈ (normalize_features fs).map (fun e => e.2.2.1) ∧
          (∀ w ∈ (normalize_features fs).map (fun e => e.2.2.1), w ≤ 1) ∧
          (∀ v w : ℚ, v ≤ w → v / M ≤ w / M)) ∧
      ((∀ v ∈ fs.map (fun e => e.2.2.1), v ≤ 0) →
        (normalize_features fs).map (fun e => e.2.2.1) = fs.map (fun e => e.2.2.1)) ∧
      ((∃ v ∈ fs.map (fun e => e.2.2.2), 0 < v) →
        ∃ M, M ∈ fs.map (fun e => e.2.2.2) ∧ 0 < M ∧
          (∀ v ∈ fs.map (fun e => e.2.2.2), v ≤ M) ∧
          (normalize_features fs).map (fun e => e.2.2.2) =
            (fs.map (fun e => e.2.2.2)).map (fun v => v / M) ∧
          (1 : ℚ) ∈ (normalize_features fs).map (fun e => e.2.2.2) ∧
          (∀ w ∈ (normalize_features fs).map (fun e => e.2.2.2), w ≤ 1) ∧
          (∀ v w : ℚ, v ≤ w → v / M ≤ w / M)) ∧
      ((∀ v ∈ fs.map (fun e => e.2.2.2), v ≤ 0) →
        (normalize_features fs).map (fun e => e.2.2.2) = fs.map (fun e => e.2.2.2))) ∧
    normalize_features [(1, ((2 : ℚ), (4 : ℚ), (8 : ℚ))), (2, ((1 : ℚ), (2 : ℚ), (6 : ℚ)))] =
      [(1, ((1 : ℚ), (1 : ℚ), (1 : ℚ))), (2, ((1/2 : ℚ), (1/2 : ℚ), (3/4 : ℚ)))] := by
  constructor
  · intro fs
    have e1 := normalize_features_dim1 fs
    have e2 := normalize_features_dim2 fs
    have e3 := normalize_features_dim3 fs
    rw [maxTriple_eq fs] at e1 e2 e3
    dsimp only at e1 e2 e3
    exact ⟨dim_spec_of_pos _ _ e1, dim_spec_of_nonpos _ _ e1,
      dim_spec_of_pos _ _ e2, dim_spec_of_nonpos _ _ e2,
      dim_spec_of_pos _ _ e3, dim_spec_of_nonpos _ _ e3⟩
  · norm_num [normalize_features, maxTriple]

/-- Witness for C6: the theorem applied at the concrete example map, with
the positive-maximum hypothesis of the first dimension discharged there. -/
theorem normalize_features_correct_witness :
    (1 : ℚ) ∈ (normalize_features
      [(1, ((2 : ℚ), (4 : ℚ), (8 : ℚ))), (2, ((1 : ℚ), (2 : ℚ), (6 : ℚ)))]).map
        (fun e => e.2.1) := by
  obtain ⟨M, _, _, _, _, h1, _, _⟩ :=
    (normalize_features_correct.1
      [(1, ((2 : ℚ), (4 : ℚ), (8 : ℚ))), (2, ((1 : ℚ), (2 : ℚ), (6 : ℚ)))]).1
      ⟨2, by decide, by decide⟩
  exact h1

theorem foldl_max_eq_listMax0Aux : ∀ (l : List ℚ) (a : ℚ),
    l.foldl max a = listMax0Aux a l := by
  intro l
  induction l with
  | nil => intro a; rfl
  | cons v rest ih =>
      intro a
      simp only [List.foldl_cons]
      unfold listMax0Aux
      simp only [List.foldl_cons]
      rw [show (if v > a then v else a) = max a v by
        rcases le_or_lt v a with h | h
        · rw [if_neg (not_lt.mpr h), max_eq_left h]
        · rw [if_pos h, max_eq_right h.le]]
      exact ih (max a v)

theorem foldl_max_le (l : List ℚ) : ∀ v ∈ l, v ≤ l.foldl max 0 := by
  rw [foldl_max_eq_listMax0Aux]
  exact listMax0_ge l

theorem foldl_max_nonneg (l : List ℚ) : 0 ≤ l.foldl max 0 := by
  rw [foldl_max_eq_listMax0Aux]
  exact listMax0_nonneg l

theorem foldl_max_mem_of_pos (l : List ℚ) (h : 0 < l.foldl max 0) :
    l.foldl max 0 ∈ l := by
  rw [foldl_max_eq_listMax0Aux] at h ⊢
  exact listMax0_mem_of_pos l h

/-- C4: whenever compute_betweenness returns a map, all scores are
nonnegative; if any score is positive then the scores were divided by the
(attained) maximum, so 1 is the maximum returned value; and if the maximum
is 0 then every score is 0. -/
theorem compute_betweenness_normalized (edges : List (Nat × Nat)) (S : List Nat)
    (m : AList ℚ) (h : compute_betweenness edges S = some m) :
    (∀ q ∈ m.map Prod.snd, 0 ≤ q) ∧
    ((∃ q ∈ m.map Prod.snd, 0 < q) →
      ((1 : ℚ) ∈ m.map Prod.snd ∧ ∀ q ∈ m.map Prod.snd, q ≤ 1)) ∧
    ((m.map Prod.snd).foldl max 0 = 0 → ∀ q ∈ m.map Prod.snd, q = 0) := by
  rw [compute_betweenness] at h
  rcases hf : (S.foldl (betweennessFoldStep (buildGraph edges)) (some [])) with _ | cent
  · rw [hf] at h
    exact absurd h (by simp)
  · rw [hf] at h
    dsimp only at h
    have hnn : ∀ e ∈ cent, 0 ≤ e.2 :=
      betweennessFold_entries_nonneg (buildGraph edges) S (some []) cent hf
        (by
          intro cent0 hc0 e he
          injection hc0 with hc0
          subst hc0
          exact absurd he (List.not_mem_nil e))
    have hvals : ∀ q ∈ cent.map Prod.snd, 0 ≤ q := by
      intro q hq
      obtain ⟨e, he, rfl⟩ := List.mem_map.mp hq
      exact hnn e he
    by_cases hM : 0 < (cent.map Prod.snd).foldl max 0
    · rw [if_pos hM] at h
      simp only [Option.some.injEq] at h
      subst h
      have hmval : ∀ q, q ∈ (cent.map (fun e =>
          (e.1, e.2 / (cent.map Prod.snd).foldl max 0))).map Prod.snd ↔
          ∃ v ∈ cent.map Prod.snd, v / (cent.map Prod.snd).foldl max 0 = q := by
        intro q
        constructor
        · intro hq
          obtain ⟨e, he, rfl⟩ := List.mem_map.mp hq
          obtain ⟨e2, he2, rfl⟩ := List.mem_map.mp he
          exact ⟨e2.2, List.mem_map.mpr ⟨e2, he2, rfl⟩, rfl⟩
        · rintro ⟨v, hv, rfl⟩
          obtain ⟨e, he, rfl⟩ := List.mem_map.mp hv
          exact List.mem_map.mpr ⟨(e.1, e.2 / (cent.map Prod.snd).foldl max 0),
            List.mem_map.mpr ⟨e, he, rfl⟩, rfl⟩
      refine ⟨?_, fun _ => ⟨?_, ?_⟩, ?_⟩
      · intro q hq
        obtain ⟨v, hv, rfl⟩ := (hmval q).mp hq
        exact div_nonneg (hvals v hv) hM.le
      · refine (hmval 1).mpr ⟨(cent.map Prod.snd).foldl max 0,
          foldl_max_mem_of_pos _ hM, ?_⟩
        exact div_self (ne_of_gt hM)
      · intro q hq
        obtain ⟨v, hv, rfl⟩ := (hmval q).mp hq
        exact (div_le_one hM).mpr (foldl_max_le _ v hv)
      · intro hzero
        exfalso
        have h1 : (1 : ℚ) ∈ (cent.map (fun e =>
            (e.1, e.2 / (cent.map Prod.snd).foldl max 0))).map Prod.snd :=
          (hmval 1).mpr ⟨(cent.map Prod.snd).foldl max 0,
            foldl_max_mem_of_pos _ hM, div_self (ne_of_gt hM)⟩
        have h2 := foldl_max_le _ 1 h1
        rw [hzero] at h2
        linarith
    · rw [if_neg hM] at h
      simp only [Option.some.injEq] at h
      subst h
      have hzero : ∀ q ∈ cent.map Prod.snd, q = 0 := by
        intro q hq
        have h1 := hvals q hq
        have h2 := foldl_max_le (cent.map Prod.snd) q hq
        have h3 := foldl_max_nonneg (cent.map Prod.snd)
        have h4 : (cent.map Prod.snd).foldl max 0 ≤ 0 := not_lt.mp hM
        linarith
      refine ⟨hvals, ?_, fun _ => hzero⟩
      rintro ⟨q, hq, hqpos⟩
      exfalso
      rw [hzero q hq] at hqpos
      exact lt_irrefl 0 hqpos

/-- Witness for C4 at edges = [(1,2)], S = [1]: the pass from source 1
accumulates a zero score for node 2, the maximum is 0, and all returned
scores are 0 (and nonnegative). -/
theorem compute_betweenness_normalized_witness :
    compute_betweenness [(1, 2)] [1] = some [(2, (0 : ℚ))] ∧
    (∀ q ∈ ([(2, (0 : ℚ))] : AList ℚ).map Prod.snd, 0 ≤ q) := by
  have hfold : List.foldl (betweennessFoldStep (buildGraph [(1, 2)])) (some []) [1] =
      some [(2, ((0 : ℚ) + 0))] := rfl
  have hval : ((0 : ℚ) + 0) = 0 := by norm_num
  rw [hval] at hfold
  have hcb : compute_betweenness [(1, 2)] [1] = some [(2, (0 : ℚ))] := by
    rw [compute_betweenness, hfold]
    dsimp only
    simp only [List.map_cons, List.map_nil, List.foldl_cons, List.foldl_nil, max_self]
    rw [if_neg (lt_irrefl 0)]
  exact ⟨hcb, (compute_betweenness_normalized [(1, 2)] [1] _ hcb).1⟩

theorem getD_set_eq {α : Type} : ∀ (l : List α) (i : Nat) (v d : α), i < l.length →
    (l.set i v).getD i d = v := by
  intro l
  induction l with
  | nil => intro i v d h; simp at h
  | cons a rest ih =>
      intro i v d h
      cases i with
      | zero => rfl
      | succ j =>
          simp only [List.set_cons_succ, List.getD_cons_succ]
          exact ih j v d (by simpa using h)

theorem getD_set_ne {α : Type} : ∀ (l : List α) (i j : Nat) (v d : α), i ≠ j →
    (l.set i v).getD j d = l.getD j d := by
  intro l
  induction l with
  | nil => intro i j v d h; simp [List.set]
  | cons a rest ih =>
      intro i j v d h
      cases i with
      | zero =>
          cases j with
          | zero => exact absurd rfl h
          | succ j2 => rfl
      | succ i2 =>
          cases j with
          | zero => rfl
          | succ j2 =>
              simp only [List.set_cons_succ, List.getD_cons_succ]
              exact ih i2 j2 v d (fun h2 => h (by rw [h2]))

theorem drop_eq_cons_head {α : Type} (d : α) :
    ∀ (l : List α) (i : Nat) (c : α) (t : List α), l.drop i = c :: t →
      l.getD i d = c ∧ l.drop (i + 1) = t := by
  intro l
  induction l with
  | nil =>
      intro i c t h
      simp [List.drop_nil] at h
  | cons a rest ih =>
      intro i c t h
      cases i with
      | zero =>
          simp only [List.drop_zero] at h
          injection h with h1 h2
          subst h1
          subst h2
          exact ⟨rfl, by simp⟩
      | succ j =>
          simp only [List.drop_succ_cons] at h
          obtain ⟨h1, h2⟩ := ih j c t h
          exact ⟨by simpa using h1, by simpa using h2⟩

/-- The linear scan invariant: from a state that is a correct first-argmin
of the prefix before index i, folding the remaining suffix yields the
first-argmin of the whole centroid list. -/
theorem assignScan_aux (feat : Feat) (all : List Feat) :
    ∀ (cs : List Feat) (best i : Nat) (bestd : ℚ),
      all.drop i = cs →
      best < i → i ≤ all.length →
      bestd = euclidean_distance_sq feat (all.getD best (0, 0, 0)) →
      (∀ j < i, bestd ≤ euclidean_distance_sq feat (all.getD j (0, 0, 0))) →
      (∀ j < best, bestd < euclidean_distance_sq feat (all.getD j (0, 0, 0))) →
      ((cs.foldl (fun acc c =>
          if euclidean_distance_sq feat c < acc.2.1 then
            (acc.2.2, euclidean_distance_sq feat c, acc.2.2 + 1)
          else (acc.1, acc.2.1, acc.2.2 + 1)) (best, bestd, i)).1 < all.length ∧
       (∀ j < all.length,
         euclidean_distance_sq feat (all.getD (cs.foldl (fun acc c =>
            if euclidean_distance_sq feat c < acc.2.1 then
              (acc.2.2, euclidean_distance_sq feat c, acc.2.2 + 1)
            else (acc.1, acc.2.1, acc.2.2 + 1)) (best, bestd, i)).1 (0, 0, 0)) ≤
          euclidean_distance_sq feat (all.getD j (0, 0, 0))) ∧
       (∀ j < (cs.foldl (fun acc c =>
            if euclidean_distance_sq feat c < acc.2.1 then
              (acc.2.2, euclidean_distance_sq feat c, acc.2.2 + 1)
            else (acc.1, acc.2.1, acc.2.2 + 1)) (best, bestd, i)).1,
         euclidean_distance_sq feat (all.getD (cs.foldl (fun acc c =>
            if euclidean_distance_sq feat c < acc.2.1 then
              (acc.2.2, euclidean_distance_sq feat c, acc.2.2 + 1)
            else (acc.1, acc.2.1, acc.2.2 + 1)) (best, bestd, i)).1 (0, 0, 0)) <
          euclidean_distance_sq feat (all.getD j (0, 0, 0)))) := by
  intro cs
  induction cs with
  | nil =>
      intro best i bestd hdrop hbi hile hbd hle hlt
      simp only [List.foldl_nil]
      refine ⟨lt_of_lt_of_le hbi hile, ?_, ?_⟩
      · intro j hj
        rcases lt_or_le j i with h | h
        · rw [← hbd]
          exact hle j h
        · exfalso
          have : all.drop i = [] := hdrop
          have h2 : all.length ≤ i := by
            have := List.drop_eq_nil_iff.mp this
            omega
          omega
      · intro j hj
        rw [← hbd]
        exact hlt j hj
  | cons c cs2 ih =>
      intro best i bestd hdrop hbi hile hbd hle hlt
      obtain ⟨hc, hdrop2⟩ := drop_eq_cons_head (0, 0, 0) all i c cs2 hdrop
      have hilen : i < all.length := by
        by_contra h
        push_neg at h
        have : all.drop i = [] := List.drop_eq_nil_iff.mpr h
        rw [hdrop] at this
        exact absurd this (by simp)
      simp only [List.foldl_cons]
      by_cases hcmp : euclidean_distance_sq feat c < bestd
      · rw [if_pos hcmp]
        refine ih i (i + 1) (euclidean_distance_sq feat c) hdrop2 (by omega)
          (by omega) (by rw [hc]) ?_ ?_
        · intro j hj
          rcases lt_or_le j i with h | h
          · exact le_of_lt (lt_of_lt_of_le hcmp (hle j h))
          · have : j = i := by omega
            subst this
            rw [hc]
        · intro j hj
          exact lt_of_lt_of_le hcmp (hle j hj)
      · rw [if_neg hcmp]
        refine ih best (i + 1) bestd hdrop2 (by omega) (by omega) hbd ?_ hlt
        intro j hj
        rcases lt_or_le j i with h | h
        · exact hle j h
        · have : j = i := by omega
          subst this
          rw [hc]
          exact not_lt.mp hcmp

/-- The nearest-centroid scan returns the least index attaining the minimum
distance: ties are broken toward the lower index since only a strictly
smaller distance replaces the current best. -/
theorem assignBest_spec (feat c0 : Feat) (rest : List Feat) :
    ∃ b, assignBest feat (c0 :: rest) = some b ∧ b < (c0 :: rest).length ∧
      (∀ j < (c0 :: rest).length,
        euclidean_distance_sq feat ((c0 :: rest).getD b (0, 0, 0)) ≤
          euclidean_distance_sq feat ((c0 :: rest).getD j (0, 0, 0))) ∧
      (∀ j < b,
        euclidean_distance_sq feat ((c0 :: rest).getD b (0, 0, 0)) <
          euclidean_distance_sq feat ((c0 :: rest).getD j (0, 0, 0))) := by
  obtain ⟨h1, h2, h3⟩ := assignScan_aux feat (c0 :: rest) rest 0 1
    (euclidean_distance_sq feat c0) (by simp) (by omega) (by simp)
    (by rfl)
    (by
      intro j hj
      have : j = 0 := by omega
      subst this
      exact le_refl _)
    (by intro j hj; omega)
  exact ⟨_, rfl, h1, h2, h3⟩

theorem assignBest_lt (feat : Feat) (centroids : List Feat) (b : Nat)
    (h : assignBest feat centroids = some b) : b < centroids.length := by
  cases centroids with
  | nil => simp [assignBest] at h
  | cons c0 rest =>
      obtain ⟨b2, hb2, hlt, _, _⟩ := assignBest_spec feat c0 rest
      rw [h] at hb2
      injection hb2 with hb2
      rw [hb2]
      exact hlt

/-- The assignment step succeeds on nonempty centroids; its result holds
exactly the feature keys plus the stale keys, every fresh entry carries a
scan result, untouched keys keep their entry, and with distinct feature
keys each node maps to the scan result for its own feature vector. -/
theorem assignStep_spec (centroids : List Feat) (hc : centroids ≠ []) :
    ∀ (features : AList Feat) (asg : AList Nat),
      ∃ asg2, assignStep centroids features asg = some asg2 ∧
        (∀ x, x ∈ alKeys asg2 ↔ x ∈ alKeys features ∨ x ∈ alKeys asg) ∧
        (∀ e ∈ asg2, e.2 < centroids.length ∨ e ∈ asg) ∧
        (∀ x, x ∉ alKeys features → alGet x asg2 = alGet x asg) ∧
        ((alKeys features).Nodup → ∀ node feat, (node, feat) ∈ features →
          alGet node asg2 = assignBest feat centroids) := by
  intro features
  induction features with
  | nil =>
      intro asg
      refine ⟨asg, rfl, ?_, fun e he => Or.inr he, fun x _ => rfl, ?_⟩
      · intro x
        simp [alKeys]
      · intro _ node feat h
        exact absurd h (List.not_mem_nil _)
  | cons e0 rest ih =>
      intro asg
      obtain ⟨node, feat⟩ := e0
      obtain ⟨c0, cs, rfl⟩ : ∃ c0 cs, centroids = c0 :: cs := by
        cases centroids with
        | nil => exact absurd rfl hc
        | cons c0 cs => exact ⟨c0, cs, rfl⟩
      obtain ⟨b, hb, hblt, _, _⟩ := assignBest_spec feat c0 cs
      obtain ⟨asg2, h1, h2, h3, h4, h5⟩ := ih (alInsert node b asg)
      refine ⟨asg2, ?_, ?_, ?_, ?_, ?_⟩
      · simp only [assignStep, hb]
        exact h1
      · intro x
        rw [h2 x, mem_alKeys_alInsert]
        simp only [alKeys, List.map_cons, List.mem_cons]
        tauto
      · intro e he
        rcases h3 e he with h | h
        · exact Or.inl h
        · rcases mem_alInsert h with h6 | h6
          · subst h6
            exact Or.inl hblt
          · exact Or.inr h6
      · intro x hx
        simp only [alKeys, List.map_cons, List.mem_cons] at hx
        push_neg at hx
        rw [h4 x hx.2]
        exact alGet_alInsert_ne (Ne.symm hx.1) b asg
      · intro hnd node2 feat2 hmem
        simp only [alKeys, List.map_cons, List.nodup_cons] at hnd
        rcases List.mem_cons.mp hmem with h6 | h6
        · injection h6 with h6a h6b
          subst h6a
          subst h6b
          rw [h4 node2 hnd.1]
          rw [alGet_alInsert_self]
          exact hb.symm
        · exact h5 hnd.2 node2 feat2 h6

/-- The counts/sums accumulation computes, per cluster index, the number of
assigned nodes and the componentwise sum of their feature vectors. -/
theorem accumCS_spec (features : AList Feat) :
    ∀ (asg : AList Nat) (counts : List Nat) (sums : List Feat),
      (∀ e ∈ asg, e.2 < counts.length ∧ e.2 < sums.length) →
      ∃ cs, accumCS features asg counts sums = some cs ∧
        cs.1.length = counts.length ∧ cs.2.length = sums.length ∧
        (∀ i, cs.1.getD i 0 =
          counts.getD i 0 + (asg.filter (fun e => e.2 = i)).length) ∧
        (∀ i, cs.2.getD i (0, 0, 0) =
          featSumFrom (sums.getD i (0, 0, 0))
            ((asg.filter (fun e => e.2 = i)).map
              (fun e => (alGet e.1 features).getD (0, 0, 0)))) := by
  intro asg
  induction asg with
  | nil =>
      intro counts sums _
      exact ⟨(counts, sums), rfl, rfl, rfl, fun i => by simp [featSumFrom],
        fun i => by simp [featSumFrom]⟩
  | cons e0 rest ih =>
      intro counts sums hb
      obtain ⟨node, cluster⟩ := e0
      have hbnd := hb (node, cluster) (List.mem_cons_self _ _)
      have hrest : ∀ e ∈ rest, e.2 < (counts.set cluster (counts.getD cluster 0 + 1)).length ∧
          e.2 < (sums.set cluster
            ((sums.getD cluster (0, 0, 0)).1 + ((alGet node features).getD (0, 0, 0)).1,
             (sums.getD cluster (0, 0, 0)).2.1 + ((alGet node features).getD (0, 0, 0)).2.1,
             (sums.getD cluster (0, 0, 0)).2.2 + ((alGet node features).getD (0, 0, 0)).2.2)).length := by
        intro e he
        have := hb e (List.mem_cons_of_mem _ he)
        simpa [List.length_set] using this
      obtain ⟨cs, h1, h2, h3, h4, h5⟩ := ih _ _ hrest
      refine ⟨cs, ?_, by simpa [List.length_set] using h2,
        by simpa [List.length_set] using h3, ?_, ?_⟩
      · simp only [accumCS]
        rw [if_pos hbnd]
        exact h1
      · intro i
        rw [h4 i]
        by_cases hci : cluster = i
        · subst hci
          rw [getD_set_eq counts cluster _ 0 hbnd.1]
          have hfc : (((node, cluster) :: rest).filter (fun e => e.2 = cluster)) =
              (node, cluster) :: rest.filter (fun e => e.2 = cluster) := by
            simp only [List.filter_cons]
            rw [if_pos (by simp)]
          rw [hfc]
          simp only [List.length_cons]
          omega
        · rw [getD_set_ne counts cluster i _ 0 hci]
          have : (((node, cluster) :: rest).filter (fun e => e.2 = i)) =
              rest.filter (fun e => e.2 = i) := by
            simp only [List.filter_cons]
            rw [if_neg (by simpa using hci)]
          rw [this]
      · intro i
        rw [h5 i]
        by_cases hci : cluster = i
        · subst hci
          rw [getD_set_eq sums cluster _ (0, 0, 0) hbnd.2]
          have : (((node, cluster) :: rest).filter (fun e => e.2 = cluster)).map
              (fun e => (alGet e.1 features).getD (0, 0, 0)) =
              (alGet node features).getD (0, 0, 0) ::
                (rest.filter (fun e => e.2 = cluster)).map
                  (fun e => (alGet e.1 features).getD (0, 0, 0)) := by
            simp only [List.filter_cons]
            rw [if_pos (by simp)]
            simp
          rw [this]
          rfl
        · rw [getD_set_ne sums cluster i _ (0, 0, 0) hci]
          have : (((node, cluster) :: rest).filter (fun e => e.2 = i)) =
              rest.filter (fun e => e.2 = i) := by
            simp only [List.filter_cons]
            rw [if_neg (by simpa using hci)]
          rw [this]

/-- The centroid rewrite: processed indices with a positive count become
the sums/counts quotient, all other indices are untouched; the length is
preserved, and the pass succeeds when every positive-count index is in
bounds. -/
theorem updateCentroidsAux_spec (counts : List Nat) (sums : List Feat) :
    ∀ (idxs : List Nat) (centroids : List Feat),
      (∀ i ∈ idxs, 0 < counts.getD i 0 → i < centroids.length) →
      ∃ c2, updateCentroidsAux counts sums idxs centroids = some c2 ∧
        c2.length = centroids.length ∧
        (∀ j, j ∉ idxs → c2.getD j (0, 0, 0) = centroids.getD j (0, 0, 0)) ∧
        (idxs.Nodup → ∀ j ∈ idxs,
          (0 < counts.getD j 0 →
            c2.getD j (0, 0, 0) =
              ((sums.getD j (0, 0, 0)).1 / (counts.getD j 0 : ℚ),
               (sums.getD j (0, 0, 0)).2.1 / (counts.getD j 0 : ℚ),
               (sums.getD j (0, 0, 0)).2.2 / (counts.getD j 0 : ℚ))) ∧
          (counts.getD j 0 = 0 → c2.getD j (0, 0, 0) = centroids.getD j (0, 0, 0))) := by
  intro idxs
  induction idxs with
  | nil =>
      intro centroids _
      exact ⟨centroids, rfl, rfl, fun j _ => rfl, fun _ j hj => absurd hj (List.not_mem_nil j)⟩
  | cons i rest ih =>
      intro centroids hbnd
      by_cases hpos : 0 < counts.getD i 0
      · have hilen : i < centroids.length := hbnd i (List.mem_cons_self _ _) hpos
        obtain ⟨c2, h1, h2, h3, h4⟩ := ih
          (centroids.set i
            ((sums.getD i (0, 0, 0)).1 / (counts.getD i 0 : ℚ),
             (sums.getD i (0, 0, 0)).2.1 / (counts.getD i 0 : ℚ),
             (sums.getD i (0, 0, 0)).2.2 / (counts.getD i 0 : ℚ)))
          (by
            intro j hj hjpos
            rw [List.length_set]
            exact hbnd j (List.mem_cons_of_mem _ hj) hjpos)
        refine ⟨c2, ?_, by simpa [List.length_set] using h2, ?_, ?_⟩
        · simp only [updateCentroidsAux]
          rw [if_pos hpos, if_pos hilen]
          exact h1
        · intro j hj
          have hji : j ≠ i := fun h => hj (h ▸ List.mem_cons_self _ _)
          have hjr : j ∉ rest := fun h => hj (List.mem_cons_of_mem _ h)
          rw [h3 j hjr, getD_set_ne centroids i j _ (0, 0, 0) (Ne.symm hji)]
        · intro hnd j hj
          rw [List.nodup_cons] at hnd
          rcases List.mem_cons.mp hj with hji | hjr
          · subst hji
            constructor
            · intro _
              rw [h3 j hnd.1, getD_set_eq centroids j _ (0, 0, 0) hilen]
            · intro h0
              rw [h0] at hpos
              exact absurd hpos (lt_irrefl 0)
          · have hji : j ≠ i := fun h => hnd.1 (h ▸ hjr)
            constructor
            · intro hjpos
              exact (h4 hnd.2 j hjr).1 hjpos
            · intro h0
              rw [(h4 hnd.2 j hjr).2 h0,
                getD_set_ne centroids i j _ (0, 0, 0) (Ne.symm hji)]
      · obtain ⟨c2, h1, h2, h3, h4⟩ := ih centroids
          (fun j hj hjpos => hbnd j (List.mem_cons_of_mem _ hj) hjpos)
        refine ⟨c2, ?_, h2, ?_, ?_⟩
        · simp only [updateCentroidsAux]
          rw [if_neg hpos]
          exact h1
        · intro j hj
          exact h3 j (fun h => hj (List.mem_cons_of_mem _ h))
        · intro hnd j hj
          rw [List.nodup_cons] at hnd
          rcases List.mem_cons.mp hj with hji | hjr
          · subst hji
            constructor
            · intro hjpos
              exact absurd hjpos hpos
            · intro _
              exact h3 j hnd.1
          · exact ⟨(h4 hnd.2 j hjr).1, (h4 hnd.2 j hjr).2⟩

theorem getD_replicate_zero (k i : Nat) : (List.replicate k (0 : Nat)).getD i 0 = 0 := by
  induction k generalizing i with
  | zero => simp
  | succ k2 ih =>
      cases i with
      | zero => rfl
      | succ j => simp [List.replicate, ih j]

theorem getD_replicate_featzero (k i : Nat) :
    (List.replicate k ((0 : ℚ), (0 : ℚ), (0 : ℚ))).getD i (0, 0, 0) = (0, 0, 0) := by
  induction k generalizing i with
  | zero => simp
  | succ k2 ih =>
      cases i with
      | zero => rfl
      | succ j => simp [List.replicate, ih j]

/-- Success and shape of the kmeans iteration loop: with a nonempty centroid
vector of length at most k, every iteration succeeds, the assignment map
after at least one iteration holds exactly the feature keys, and every
assigned index stays below the centroid count. -/
theorem kmeansLoop_spec (features : AList Feat) (k : Nat) :
    ∀ (iters : Nat) (centroids : List Feat) (asg : AList Nat),
      centroids ≠ [] → centroids.length ≤ k →
      (∀ e ∈ asg, e.2 < centroids.length) →
      (∀ x ∈ alKeys asg, x ∈ alKeys features) →
      ∃ m, kmeansLoop features k iters centroids asg = some m ∧
        (∀ e ∈ m, e.2 < centroids.length) ∧
        (iters = 0 → m = asg) ∧
        (1 ≤ iters → ∀ x, x ∈ alKeys m ↔ x ∈ alKeys features) := by
  intro iters
  induction iters with
  | zero =>
      intro centroids asg _ _ hb _
      exact ⟨asg, rfl, hb, fun _ => rfl, fun h => absurd h (by omega)⟩
  | succ iters ih =>
      intro centroids asg hc hck hb hkeys
      obtain ⟨asg2, ha1, ha2, ha3, ha4, _⟩ := assignStep_spec centroids hc features asg
      have hb2 : ∀ e ∈ asg2, e.2 < centroids.length := by
        intro e he
        rcases ha3 e he with h | h
        · exact h
        · exact hb e h
      have hkeys2 : ∀ x ∈ alKeys asg2, x ∈ alKeys features := by
        intro x hx
        rcases (ha2 x).mp hx with h | h
        · exact h
        · exact hkeys x h
      obtain ⟨cs, hacc, hclen, hslen, hcnt, hsum⟩ := accumCS_spec features asg2
        (List.replicate k 0) (List.replicate k (0, 0, 0))
        (by
          intro e he
          constructor
          · rw [List.length_replicate]
            exact lt_of_lt_of_le (hb2 e he) hck
          · rw [List.length_replicate]
            exact lt_of_lt_of_le (hb2 e he) hck)
      obtain ⟨c2, hupd, hlen2, _, _⟩ := updateCentroidsAux_spec cs.1 cs.2 (List.range k)
        centroids
        (by
          intro i _ hpos
          rw [hcnt i, getD_replicate_zero] at hpos
          simp only [Nat.zero_add] at hpos
          have hne : asg2.filter (fun e => e.2 = i) ≠ [] := by
            intro h0
            rw [h0] at hpos
            simp at hpos
          obtain ⟨e, he⟩ := List.exists_mem_of_ne_nil _ hne
          have hmem := List.mem_of_mem_filter he
          have hval : e.2 = i := by
            have := List.of_mem_filter he
            simpa using this
          rw [← hval]
          exact hb2 e hmem)
      have hc2ne : c2 ≠ [] := by
        intro h0
        rw [h0] at hlen2
        cases centroids with
        | nil => exact hc rfl
        | cons a l => simp at hlen2
      obtain ⟨m, hm1, hm2, hm3, hm4⟩ := ih c2 asg2 hc2ne (hlen2 ▸ hck)
        (fun e he => hlen2 ▸ hb2 e he) hkeys2
      refine ⟨m, ?_, fun e he => hlen2 ▸ hm2 e he, fun h => absurd h (by omega), ?_⟩
      · simp only [kmeansLoop, ha1, hacc]
        rw [show updateCentroids k cs.1 cs.2 centroids =
          updateCentroidsAux cs.1 cs.2 (List.range k) centroids from rfl, hupd]
        exact hm1
      · intro _ x
        cases iters with
        | zero =>
            rw [hm3 rfl]
            rw [ha2 x]
            constructor
            · rintro (h | h)
              · exact h
              · exact hkeys x h
            · exact Or.inl
        | succ j => exact hm4 (by omega) x

/-- C10: with the choose_multiple selection nonempty and no longer than k,
kmeans returns the empty assignment map when max_iters = 0, and otherwise
returns a map holding exactly the feature keys with every assigned cluster
index strictly below the number of initial centroids actually chosen. -/
theorem kmeans_result_shape (features : AList Feat) (k max_iters : Nat)
    (init : List Nat) (hne : init ≠ []) (hlen : init.length ≤ k) :
    (max_iters = 0 → kmeans features k max_iters init = some []) ∧
    (1 ≤ max_iters → ∃ m, kmeans features k max_iters init = some m ∧
      (∀ x, x ∈ alKeys m ↔ x ∈ alKeys features) ∧
      (∀ e ∈ m, e.2 < init.length)) := by
  have hmapne : init.map (fun id => (alGet id features).getD (0, 0, 0)) ≠ [] := by
    cases init with
    | nil => exact absurd rfl hne
    | cons a l => simp
  have hmaplen : (init.map (fun id => (alGet id features).getD (0, 0, 0))).length =
      init.length := List.length_map _ _
  obtain ⟨m, hm1, hm2, hm3, hm4⟩ := kmeansLoop_spec features k max_iters
    (init.map (fun id => (alGet id features).getD (0, 0, 0))) []
    hmapne (hmaplen ▸ hlen)
    (fun e he => absurd he (List.not_mem_nil e))
    (fun x hx => absurd hx (List.not_mem_nil x))
  constructor
  · intro h0
    subst h0
    rw [kmeans, hm1, hm3 rfl]
  · intro h1
    exact ⟨m, hm1, hm4 h1, fun e he => hmaplen ▸ hm2 e he⟩

/-- Witness for C10 at one node, k = 1, one iteration. -/
theorem kmeans_result_shape_witness :
    ∃ m, kmeans [(1, ((0 : ℚ), (0 : ℚ), (0 : ℚ)))] 1 1 [1] = some m ∧
      (∀ x, x ∈ alKeys m ↔ x ∈ alKeys [(1, ((0 : ℚ), (0 : ℚ), (0 : ℚ)))]) ∧
      (∀ e ∈ m, e.2 < ([1] : List Nat).length) :=
  (kmeans_result_shape [(1, ((0 : ℚ), (0 : ℚ), (0 : ℚ)))] 1 1 [1]
    (by simp) (by simp)).2 (by omega)

/-- C1 counterexample: one distinct node and k = 2 (k exceeding the node
count; choose_multiple can only select the single key).  kmeans runs to
completion and returns a normal assignment from the silently truncated
centroid list — it does not reject the call with a configuration error. -/
theorem kmeans_no_rejection_counterexample :
    kmeans [(1, ((0 : ℚ), (0 : ℚ), (0 : ℚ)))] 2 1 [1] = some [(1, 0)] := rfl

/-- C1 amended: kmeans performs no validation of k.  With k exceeding the
distinct node count it silently proceeds on the truncated selection and
returns a normal assignment; with k = 0 (empty selection), a nonempty
feature map and at least one iteration it panics indexing centroids[0]
(modelled none) rather than returning a typed configuration error; and any
nonempty selection no longer than k — in particular k equal to the node
count — succeeds. -/
theorem kmeans_k_validation_behavior :
    (kmeans [(1, ((0 : ℚ), (0 : ℚ), (0 : ℚ)))] 2 1 [1] = some [(1, 0)]) ∧
    (∀ (features : AList Feat) (iters : Nat), features ≠ [] → 1 ≤ iters →
      kmeans features 0 iters [] = none) ∧
    (∀ (features : AList Feat) (k iters : Nat) (init : List Nat),
      init ≠ [] → init.length ≤ k → (kmeans features k iters init).isSome) := by
  refine ⟨rfl, ?_, ?_⟩
  · intro features iters hne hit
    cases iters with
    | zero => exact absurd hit (by omega)
    | succ j =>
        cases features with
        | nil => exact absurd rfl hne
        | cons e0 rest =>
            obtain ⟨node, feat⟩ := e0
            rw [kmeans]
            simp only [List.map_nil, kmeansLoop, assignStep, assignBest]
  · intro features k iters init hne hlen
    have hmapne : init.map (fun id => (alGet id features).getD (0, 0, 0)) ≠ [] := by
      cases init with
      | nil => exact absurd rfl hne
      | cons a l => simp
    obtain ⟨m, hm1, _, _, _⟩ := kmeansLoop_spec features k iters
      (init.map (fun id => (alGet id features).getD (0, 0, 0))) []
      hmapne (by rw [List.length_map]; exact hlen)
      (fun e he => absurd he (List.not_mem_nil e))
      (fun x hx => absurd hx (List.not_mem_nil x))
    rw [kmeans, hm1]
    rfl

/-- Witness for the amended C1: the k = 0 panic and the k = node-count
acceptance at concrete inputs. -/
theorem kmeans_k_validation_behavior_witness :
    kmeans [(1, ((0 : ℚ), (0 : ℚ), (0 : ℚ)))] 0 1 [] = none ∧
    (kmeans [(1, ((0 : ℚ), (0 : ℚ), (0 : ℚ)))] 1 1 [1]).isSome :=
  ⟨kmeans_k_validation_behavior.2.1 _ 1 (by simp) (by omega),
   kmeans_k_validation_behavior.2.2 _ 1 1 [1] (by simp) (by simp)⟩

/-- C8: one kmeans iteration behaves as specified: (1) the assignment scan
returns the least index attaining the minimum (squared) Euclidean distance
(ties to the lower index, strict < comparison); (2) the update step
computes per-cluster counts and componentwise feature sums over the
current assignment and replaces exactly the centroids with at least one
assigned node by the per-dimension mean, leaving empty centroids
unchanged; (3) the loop runs exactly max_iters such iterations with no
early exit: zero iterations return the assignments unchanged, and
iters + 1 iterations are one full assignment/update round followed by
iters more. -/
theorem kmeans_iteration_semantics :
    (∀ (feat c0 : Feat) (rest : List Feat),
      ∃ b, assignBest feat (c0 :: rest) = some b ∧ b < (c0 :: rest).length ∧
        (∀ j < (c0 :: rest).length,
          euclidean_distance_sq feat ((c0 :: rest).getD b (0, 0, 0)) ≤
            euclidean_distance_sq feat ((c0 :: rest).getD j (0, 0, 0))) ∧
        (∀ j < b,
          euclidean_distance_sq feat ((c0 :: rest).getD b (0, 0, 0)) <
            euclidean_distance_sq feat ((c0 :: rest).getD j (0, 0, 0)))) ∧
    (∀ (features : AList Feat) (k : Nat) (asg : AList Nat) (counts : List Nat)
        (sums : List Feat) (centroids c2 : List Feat),
      (∀ e ∈ asg, e.2 < centroids.length) → centroids.length ≤ k →
      accumCS features asg (List.replicate k 0) (List.replicate k (0, 0, 0)) =
        some (counts, sums) →
      updateCentroids k counts sums centroids = some c2 →
      c2.length = centroids.length ∧
      (∀ i, i < centroids.length →
        counts.getD i 0 = (asg.filter (fun e => e.2 = i)).length ∧
        sums.getD i (0, 0, 0) = featSumFrom (0, 0, 0)
          ((asg.filter (fun e => e.2 = i)).map
            (fun e => (alGet e.1 features).getD (0, 0, 0))) ∧
        (0 < counts.getD i 0 → c2.getD i (0, 0, 0) =
          ((sums.getD i (0, 0, 0)).1 / (counts.getD i 0 : ℚ),
           (sums.getD i (0, 0, 0)).2.1 / (counts.getD i 0 : ℚ),
           (sums.getD i (0, 0, 0)).2.2 / (counts.getD i 0 : ℚ))) ∧
        (counts.getD i 0 = 0 → c2.getD i (0, 0, 0) = centroids.getD i (0, 0, 0)))) ∧
    (∀ (features : AList Feat) (k : Nat) (centroids : List Feat) (asg : AList Nat),
      kmeansLoop features k 0 centroids asg = some asg) ∧
    (∀ (features : AList Feat) (k iters : Nat) (centroids : List Feat) (asg : AList Nat),
      kmeansLoop features k (iters + 1) centroids asg =
        (assignStep centroids features asg).bind (fun asg2 =>
          (accumCS features asg2 (List.replicate k 0)
            (List.replicate k (0, 0, 0))).bind (fun cs =>
              (updateCentroids k cs.1 cs.2 centroids).bind (fun c2 =>
                kmeansLoop features k iters c2 asg2)))) := by
  refine ⟨fun feat c0 rest => assignBest_spec feat c0 rest, ?_, fun _ _ _ asg => rfl, ?_⟩
  · intro features k asg counts sums centroids c2 hbnd hck haccum hupd
    obtain ⟨cs, h1, _, _, hcnt, hsum⟩ := accumCS_spec features asg
      (List.replicate k 0) (List.replicate k (0, 0, 0))
      (by
        intro e he
        rw [List.length_replicate, List.length_replicate]
        exact ⟨lt_of_lt_of_le (hbnd e he) hck, lt_of_lt_of_le (hbnd e he) hck⟩)
    rw [haccum] at h1
    simp only [Option.some.injEq] at h1
    subst h1
    have hcnt2 : ∀ i, counts.getD i 0 = (asg.filter (fun e => e.2 = i)).length := by
      intro i
      have := hcnt i
      rwa [getD_replicate_zero, Nat.zero_add] at this
    have hsum2 : ∀ i, sums.getD i (0, 0, 0) = featSumFrom (0, 0, 0)
        ((asg.filter (fun e => e.2 = i)).map
          (fun e => (alGet e.1 features).getD (0, 0, 0))) := by
      intro i
      have := hsum i
      rwa [getD_replicate_featzero] at this
    obtain ⟨c2b, h2, hlen, _, h4⟩ := updateCentroidsAux_spec counts sums (List.range k)
      centroids
      (by
        intro i _ hpos
        rw [hcnt2 i] at hpos
        have hne : asg.filter (fun e => e.2 = i) ≠ [] := by
          intro h0
          rw [h0] at hpos
          simp at hpos
        obtain ⟨e, he⟩ := List.exists_mem_of_ne_nil _ hne
        have hmem := List.mem_of_mem_filter he
        have hval : e.2 = i := by
          have := List.of_mem_filter he
          simpa using this
        rw [← hval]
        exact hbnd e hmem)
    rw [show updateCentroids k counts sums centroids =
      updateCentroidsAux counts sums (List.range k) centroids from rfl, h2] at hupd
    simp only [Option.some.injEq] at hupd
    subst hupd
    refine ⟨hlen, ?_⟩
    intro i hi
    have hik : i < k := lt_of_lt_of_le hi hck
    have hmem : i ∈ List.range k := List.mem_range.mpr hik
    obtain ⟨hpos, hzero⟩ := h4 (List.nodup_range k) i hmem
    exact ⟨hcnt2 i, hsum2 i, hpos, hzero⟩
  · intro features k iters centroids asg
    rcases h1 : assignStep centroids features asg with _ | asg2
    · simp only [kmeansLoop, h1, Option.bind]
    · rcases h2 : accumCS features asg2 (List.replicate k 0)
          (List.replicate k (0, 0, 0)) with _ | cs
      · simp only [kmeansLoop, h1, h2, Option.bind]
      · rcases h3 : updateCentroids k cs.1 cs.2 centroids with _ | c2
        · obtain ⟨csa, csb⟩ := cs
          simp only at h3
          simp only [kmeansLoop, h1, h2, Option.bind]
          rw [h3]
        · obtain ⟨csa, csb⟩ := cs
          simp only at h3
          simp only [kmeansLoop, h1, h2, Option.bind]
          rw [h3]

/-- Witness for C8: the scan spec at a one-centroid list, the update
semantics at a one-node one-cluster instance, and the zero-iteration loop
identity. -/
theorem kmeans_iteration_semantics_witness :
    (∃ b, assignBest ((0 : ℚ), (0 : ℚ), (0 : ℚ)) [((0 : ℚ), (0 : ℚ), (0 : ℚ))] =
        some b ∧ b < 1 ∧
      (∀ j < 1,
        euclidean_distance_sq ((0 : ℚ), (0 : ℚ), (0 : ℚ))
            ([((0 : ℚ), (0 : ℚ), (0 : ℚ))].getD b (0, 0, 0)) ≤
          euclidean_distance_sq ((0 : ℚ), (0 : ℚ), (0 : ℚ))
            ([((0 : ℚ), (0 : ℚ), (0 : ℚ))].getD j (0, 0, 0))) ∧
      (∀ j < b,
        euclidean_distance_sq ((0 : ℚ), (0 : ℚ), (0 : ℚ))
            ([((0 : ℚ), (0 : ℚ), (0 : ℚ))].getD b (0, 0, 0)) <
          euclidean_distance_sq ((0 : ℚ), (0 : ℚ), (0 : ℚ))
            ([((0 : ℚ), (0 : ℚ), (0 : ℚ))].getD j (0, 0, 0)))) ∧
    (∃ counts sums c2,
      accumCS [(1, ((0 : ℚ), (0 : ℚ), (0 : ℚ)))] [(1, 0)] (List.replicate 1 0)
          (List.replicate 1 (0, 0, 0)) = some (counts, sums) ∧
      updateCentroids 1 counts sums [((0 : ℚ), (0 : ℚ), (0 : ℚ))] = some c2 ∧
      c2.length = 1) ∧
    kmeansLoop [(1, ((0 : ℚ), (0 : ℚ), (0 : ℚ)))] 1 0
      [((0 : ℚ), (0 : ℚ), (0 : ℚ))] [] = some [] := by
  refine ⟨kmeans_iteration_semantics.1 _ _ _, ?_,
    kmeans_iteration_semantics.2.2.1 _ 1 _ []⟩
  obtain ⟨cs, h1, _, _, _, _⟩ := accumCS_spec [(1, ((0 : ℚ), (0 : ℚ), (0 : ℚ)))]
    [(1, 0)] (List.replicate 1 0) (List.replicate 1 (0, 0, 0))
    (by
      intro e he
      rcases List.mem_singleton.mp he with rfl
      simp)
  obtain ⟨counts, sums⟩ := cs
  obtain ⟨c2, h2, _, _, _⟩ := updateCentroidsAux_spec counts sums (List.range 1)
    [((0 : ℚ), (0 : ℚ), (0 : ℚ))]
    (by
      intro i hi _
      simpa using List.mem_range.mp hi)
  have h2b : updateCentroids 1 counts sums [((0 : ℚ), (0 : ℚ), (0 : ℚ))] = some c2 := h2
  have hlen := (kmeans_iteration_semantics.2.1 [(1, ((0 : ℚ), (0 : ℚ), (0 : ℚ)))] 1
    [(1, 0)] counts sums [((0 : ℚ), (0 : ℚ), (0 : ℚ))] c2
    (by
      intro e he
      rcases List.mem_singleton.mp he with rfl
      simp)
    (by simp) h1 h2b).1
  exact ⟨counts, sums, c2, h1, h2b, by simpa using hlen⟩

end DS210
